import Mathlib

/-!
# cgroupfs: the virtual `cpuinfo` file

A shallow embedding of `fs/cpusetinfo.go` and the properties of its three parts:
the host catalog built by the startup routine, the parser of `cpuset.cpus`
(`getCpuSets`) and the renderer (`getCpuInfo`, `ReadAll`).

Conventions of the embedding.

* A Go string or byte slice is a `Text`, a list of characters.  The two files the
  program reads (`/proc/cpuinfo`, `cpuset.cpus`) are ASCII, one byte per character.
* Package-level variables (`cpuinfo`, `replacer`, `buffer`) are the fields of
  `Globals`; a function that touches them takes the record and returns the new one.
* A run-time failure of Go (index out of range) is the result `none`.
* `int` is 64 bits wide (`linux/amd64`).  `parseUint` is called with bit size 32, so
  every id is below `2 ^ 32`: the conversions `int(cpuID)`, `int(begin)`, `int(end)`
  keep the value and `i++` never wraps.  Ids are therefore natural numbers.
* The order in which Go ranges over a map is chosen by the run time; it is an
  explicit argument `order` of the functions that range over `cpuinfo`.
-/

namespace Cgroupfs

/-! ## Text -/

/-- Text of a Go string or byte slice. -/
abbrev Text := List Char

/-- The function `strings.Split(s, sep)` for a separator of one character: the
pieces of `s` between the occurrences of `sep`; there is always at least one
piece, and the empty text has the single piece `""`. -/
def split (sep : Char) : Text → List Text
  | [] => [[]]
  | c :: cs =>
    if c = sep then [] :: split sep cs
    else
      match split sep cs with
      | [] => [[c]]
      | w :: ws => (c :: w) :: ws

/-- The predicate `unicode.IsSpace`: the white space that `strings.TrimSpace` cuts. -/
def isSpace (c : Char) : Bool :=
  let n := c.toNat
  n = 0x09 || n = 0x0A || n = 0x0B || n = 0x0C || n = 0x0D || n = 0x20 ||
  n = 0x85 || n = 0xA0 || n = 0x1680 || (0x2000 ≤ n && n ≤ 0x200A) ||
  n = 0x2028 || n = 0x2029 || n = 0x202F || n = 0x205F || n = 0x3000

/-- The function `strings.TrimSpace`: leading and trailing white space removed. -/
def TrimSpace (s : Text) : Text :=
  ((s.dropWhile isSpace).reverse.dropWhile isSpace).reverse

/-- An ASCII decimal digit. -/
def isDigit (c : Char) : Bool := 48 ≤ c.toNat && c.toNat ≤ 57

/-- Value of a text of decimal digits, most significant digit first. -/
def decValue (s : Text) : Nat := s.foldl (fun acc c => 10 * acc + (c.toNat - 48)) 0

/-- The verb `%d` of `fmt.Sprintf` at a non-negative integer. -/
def decimal (n : Nat) : Text := (Nat.repr n).toList

/-! ## parseUint -/

/-- The helper `parseUint(s, 10, 32)` is declared outside this source file.  It is a
parameter of the embedding: `run s` is the value it returns (its error result is
dropped at every call site) and `lt` is its bit size, 32. -/
structure ParseUint where
  /-- Value returned for the text `s`. -/
  run : Text → Nat
  /-- The value fits in 32 bits. -/
  lt : ∀ s, run s < 2 ^ 32

/-- Modelled from the spec: `parseUint` is not in the source tree.  A non-empty text
of digits yields its decimal value (the largest 32-bit value when it does not fit);
a parse failure is propagated silently as the zero value. -/
def parseUint : ParseUint where
  run s := if s ≠ [] ∧ s.all isDigit = true then min (decValue s) (2 ^ 32 - 1) else 0
  lt s := by
    dsimp only
    split
    · exact lt_of_le_of_lt (min_le_right _ _) (by norm_num)
    · norm_num

/-! ## The catalog `cpuinfo` -/

/-- The map `cpuinfo : map[int]string`, as its list of bindings. -/
abbrev Catalog := List (Nat × Text)

namespace Catalog

/-- Keys of the bindings. -/
def keys (m : Catalog) : List Nat := m.map Prod.fst

/-- A list of bindings is a map when no key is bound twice. -/
def WF (m : Catalog) : Prop := m.keys.Nodup

/-- The index expression `info, found := cpuinfo[id]`. -/
def get? (m : Catalog) (id : Nat) : Option Text := List.lookup id m

/-- The assignment `cpuinfo[k] = v`. -/
def set (m : Catalog) (k : Nat) (v : Text) : Catalog :=
  m.filter (fun e => e.1 ≠ k) ++ [(k, v)]

/-- The builtin `len(cpuinfo)`. -/
def len (m : Catalog) : Nat := m.length

end Catalog

/-- The package-level variables of the file. -/
structure Globals where
  /-- The host catalog. -/
  cpuinfo : Catalog
  /-- Whether `replacer` holds the compiled pattern (`false` is `nil`). -/
  replacer : Bool
  /-- The shared scratch buffer. -/
  buffer : Text
deriving DecidableEq, Repr

/-! ## getCpuSets -/

/-- The working array of `getCpuSets`: `written` is `tmpArray[:count]` and `free` is
`len(tmpArray) - count`, the slots after `count`. -/
structure Work where
  /-- The slice `tmpArray[:count]`. -/
  written : List Nat
  /-- The number `len(tmpArray) - count`. -/
  free : Nat
deriving DecidableEq, Repr

/-- The statements `tmpArray[count] = v; count++`: an index out of range when no
slot is left. -/
def store (v : Nat) (st : Work) : Option Work :=
  match st.free with
  | 0 => none
  | f + 1 => some ⟨st.written ++ [v], f⟩

/-- The loop `for i := int(begin); i <= int(end); i++ { tmpArray[count] = i; count++ }`,
by recursion on the free slots: an iteration either leaves the loop or uses a slot. -/
def rangeLoop (last : Nat) : Nat → Nat → List Nat → Option Work
  | 0, i, w => if i ≤ last then none else some ⟨w, 0⟩
  | f + 1, i, w => if i ≤ last then rangeLoop last f (i + 1) (w ++ [i]) else some ⟨w, f + 1⟩

/-- The body of the loop over the comma-separated pieces. -/
def perToken (P : ParseUint) (st : Work) (piece : Text) : Option Work :=
  match split '-' piece with
  | [x] => store (P.run x) st
  | [a, b] => rangeLoop (P.run b) st.free (P.run a) st.written
  | _ => some st

/-- The loop over the comma-separated pieces. -/
def tokenLoop (P : ParseUint) : List Text → Work → Option Work
  | [], st => some st
  | piece :: rest, st =>
    match perToken P st piece with
    | none => none
    | some st1 => tokenLoop P rest st1

/-- The function `sort.Ints`. -/
def sortInts (l : List Nat) : List Nat := l.insertionSort (· ≤ ·)

/-- The method `getCpuSets`.  `file` is the result of reading `cpuset.cpus`
(`none` when the read fails: the error is logged and the content is empty). -/
def getCpuSets (P : ParseUint) (g : Globals) (file : Option Text) : Option (List Nat) :=
  let rawContent : Text := file.getD []
  let content := TrimSpace rawContent
  match tokenLoop P (split ',' content) ⟨[], g.cpuinfo.len⟩ with
  | none => none
  | some st => some (sortInts st.written)

/-! ## The pattern and the field rewrite -/

/-- The class `\s` of the pattern syntax: tab, line feed, form feed, carriage
return and space. -/
def reSpace (c : Char) : Bool :=
  c.toNat = 0x09 || c.toNat = 0x0A || c.toNat = 0x0C || c.toNat = 0x0D || c.toNat = 0x20

/-- Match of a literal at the head of a text: the text after it. -/
def dropLiteral : Text → Text → Option Text
  | [], s => some s
  | _ :: _, [] => none
  | l :: ls, c :: cs => if l = c then dropLiteral ls cs else none

/-- Match of `\s+?` at the head of a text when the next item of the pattern is not
white space: the run of white space, which has to be non-empty, and the text after
it. -/
def spaces1 (s : Text) : Option (Nat × Text) :=
  match (s.takeWhile reSpace).length with
  | 0 => none
  | n + 1 => some (n + 1, s.dropWhile reSpace)

/-- Match of `pattern`, the expression `processor\s+?:\s+?\d`, at the head of a
text: the length of the match.  The label, white space, a colon, white space and
ONE digit. -/
def matchAt (s : Text) : Option Nat :=
  match dropLiteral "processor".toList s with
  | none => none
  | some r1 =>
    match spaces1 r1 with
    | none => none
    | some (n1, r2) =>
      match r2 with
      | ':' :: r3 =>
        match spaces1 r3 with
        | none => none
        | some (n2, r4) =>
          match r4 with
          | d :: _ => if isDigit d then some (9 + n1 + 1 + n2 + 1) else none
          | [] => none
      | _ => none

/-- The scan of `ReplaceAllString`: `skip` characters of a match are still to be
dropped; otherwise the leftmost match from here on is replaced by `repl`. -/
def replaceFrom (repl : Text) : Nat → Text → Text
  | _, [] => []
  | skip + 1, _ :: cs => replaceFrom repl skip cs
  | 0, c :: cs =>
    match matchAt (c :: cs) with
    | some n => repl ++ replaceFrom repl (n - 1) cs
    | none => c :: replaceFrom repl 0 cs

/-- The call `replacer.ReplaceAllString(src, repl)` for a replacement without `$`. -/
def ReplaceAllString (src repl : Text) : Text := replaceFrom repl 0 src

/-- Left alignment of `%-16s`: the text padded with spaces up to 16 columns. -/
def padRight16 (s : Text) : Text := s ++ List.replicate (16 - s.length) ' '

/-- The call `fmt.Sprintf("%-16s: %d", "processor", i)`. -/
def Sprintf (i : Nat) : Text := padRight16 "processor".toList ++ ": ".toList ++ decimal i

/-! ## getCpuInfo and ReadAll -/

/-- The loop `for _, info := range cpuinfo { buffer.WriteString(info) }`, the keys
being visited in the order `order`. -/
def dumpLoop (m : Catalog) : List Nat → Text → Text
  | [], buf => buf
  | k :: ks, buf =>
    match m.get? k with
    | some info => dumpLoop m ks (buf ++ info)
    | none => dumpLoop m ks buf

/-- The loop `for i, id := range cpuIDs` of `getCpuInfo`, from index `i` on. -/
def renderLoop (m : Catalog) : Nat → List Nat → Text → Text
  | _, [], buf => buf
  | i, id :: ids, buf =>
    match m.get? id with
    | some info => renderLoop m (i + 1) ids (buf ++ ReplaceAllString info (Sprintf i))
    | none => renderLoop m (i + 1) ids buf

/-- An order in which `range cpuinfo` may visit the map: every key once. -/
def RangeOrder (m : Catalog) (order : List Nat) : Prop := order.Perm m.keys

/-- The method `getCpuInfo`: the bytes returned and the package state after the
call (`buffer` holds the returned bytes). -/
def getCpuInfo (g : Globals) (order : List Nat) (cpuIDs : List Nat) : Text × Globals :=
  let buf : Text := []
  let out :=
    if cpuIDs.length = 0 then dumpLoop g.cpuinfo order buf
    else renderLoop g.cpuinfo 0 cpuIDs buf
  (out, { g with buffer := out })

/-- Result of a method that returns `([]byte, error)`: the bytes, the error (`none`
is `nil`) and the package state after the call. -/
structure Reply where
  /-- The byte slice. -/
  data : Text
  /-- The error. -/
  err : Option Text
  /-- The package-level variables after the call. -/
  globals : Globals
deriving DecidableEq, Repr

/-- The method `ReadAll`; `none` is a run-time failure inside `getCpuSets`. -/
def ReadAll (P : ParseUint) (g : Globals) (file : Option Text) (order : List Nat) :
    Option Reply :=
  let g1 := { g with buffer := [] }
  if g1.replacer = false then some ⟨g1.buffer, none, g1⟩
  else
    match getCpuSets P g1 file with
    | none => none
    | some cpuIDs =>
      let r := getCpuInfo g1 order cpuIDs
      some ⟨r.1, none, r.2⟩

/-! ## The startup routine -/

/-- The local state of the loop of `init`: the catalog, `count` and the buffer. -/
structure Scan where
  /-- The map `cpuinfo`. -/
  cpuinfo : Catalog
  /-- The next key. -/
  count : Nat
  /-- The scratch buffer. -/
  buffer : Text
deriving DecidableEq, Repr

/-- The body of the loop of `init` over the lines of the dump. -/
def scanLine (st : Scan) (line : Text) : Scan :=
  let st1 : Scan :=
    if line.length = 0 then ⟨st.cpuinfo.set st.count st.buffer, st.count + 1, []⟩ else st
  ⟨st1.cpuinfo, st1.count, st1.buffer ++ line ++ ['\n']⟩

/-- The loop of `init` over `strings.Split(string(rawContent), "\n")`. -/
def scanDump (rawContent : Text) : Scan :=
  (split '\n' rawContent).foldl scanLine ⟨[], 0, []⟩

/-- The package-level variables before the startup routine runs. -/
def Globals.zero : Globals := ⟨[], false, []⟩

/-- The startup routine `init`.  `linux` is `runtime.GOOS == "linux"` and `dump` the
result of reading `/proc/cpuinfo` (`none` when the read fails).  The constant
`pattern` compiles, so `replacer` is set whenever the dump was read. -/
def init (linux : Bool) (dump : Option Text) : Globals :=
  if linux then
    match dump with
    | none => Globals.zero
    | some rawContent =>
      let st := scanDump rawContent
      ⟨st.cpuinfo, true, st.buffer⟩
  else Globals.zero

/-! ## Well-formed content of `cpuset.cpus` -/

/-- A non-empty text of decimal digits. -/
def Digits (s : Text) : Prop := s ≠ [] ∧ ∀ c ∈ s, isDigit c = true

/-- A token of the cpuset grammar: a number `N` or a range `A-B`, each number
written as a text of digits. -/
inductive Token where
  /-- The token `N`. -/
  | one (n : Text)
  /-- The token `A-B`. -/
  | two (a b : Text)
deriving DecidableEq, Repr

namespace Token

/-- The text of a token. -/
def text : Token → Text
  | one n => n
  | two a b => a ++ '-' :: b

/-- The numbers written in a token. -/
def parts : Token → List Text
  | one n => [n]
  | two a b => [a, b]

/-- A token is well formed when its numbers are texts of digits and, for a range,
the begin is at most the end. -/
def WellFormed : Token → Prop
  | one n => Digits n
  | two a b => Digits a ∧ Digits b ∧ decValue a ≤ decValue b

/-- The ids a token contributes: `{N}`, or `{A, A+1, ..., B}`. -/
def ids : Token → List Nat
  | one n => [decValue n]
  | two a b => List.range' (decValue a) (decValue b + 1 - decValue a)

end Token

/-- The comma-separated list of the texts of the tokens. -/
def cpusetText (ts : List Token) : Text := List.intercalate [','] (ts.map Token.text)

/-- All ids contributed by a list of tokens, in the order of the tokens. -/
def contributed (ts : List Token) : List Nat := ts.flatMap Token.ids

instance Digits.decidable (s : Text) : Decidable (Digits s) := by
  unfold Digits; infer_instance

instance Token.decidableWellFormed (t : Token) : Decidable t.WellFormed := by
  cases t <;> unfold Token.WellFormed <;> infer_instance

instance RangeOrder.decidable (m : Catalog) (order : List Nat) : Decidable (RangeOrder m order) := by
  unfold RangeOrder; infer_instance

/-! ## Host dumps made of per-CPU blocks -/

/-- A per-CPU block of the host dump, as the list of its lines. -/
abbrev Block := List Text

/-- A block has one or more lines, each non-empty and without a line feed. -/
def BlockOK (b : Block) : Prop := b ≠ [] ∧ ∀ l ∈ b, l ≠ [] ∧ '\n' ∉ l

/-- The lines of a block, each followed by a line feed. -/
def blockLines (b : Block) : Text := b.flatMap (fun l => l ++ ['\n'])

/-- The text of a block in the dump: its lines, terminated by a blank line. -/
def blockText (b : Block) : Text := blockLines b ++ ['\n']

/-- The dump made of the given blocks. -/
def dumpText (bs : List Block) : Text := bs.flatMap blockText

/-- The lines of a dump: the lines of each block and the empty line that closes it,
then the empty piece after the last line feed. -/
def dumpLines (bs : List Block) : List Text := bs.flatMap (fun b => b ++ [[]]) ++ [[]]

instance BlockOK.decidable (b : Block) : Decidable (BlockOK b) := by
  unfold BlockOK; infer_instance

/-! ## What the renderer emits for one position -/

/-- The text written for position `i` of the selection when it holds `id`: the
record of `id` with the field rewrite for index `i` applied, nothing when the
catalog has no such record. -/
def emitted (m : Catalog) (i id : Nat) : Text :=
  match m.get? id with
  | some info => ReplaceAllString info (Sprintf i)
  | none => []

/-! ## Sample data -/

/-- A dump of two processors. -/
def dumpTwo : Text := "processor\t: 0\ncore id\t\t: 0\n\nprocessor\t: 1\ncore id\t\t: 1\n\n".toList

/-- The blocks of `dumpTwo`. -/
def blocksTwo : List Block :=
  [["processor\t: 0".toList, "core id\t\t: 0".toList],
   ["processor\t: 1".toList, "core id\t\t: 1".toList]]

/-- A catalog with records for the host ids 0, 1, 2 and 3. -/
def globalsFour : Globals :=
  ⟨[(0, "processor\t: 0\ncore id\t\t: 0\n".toList), (1, "processor\t: 1\ncore id\t\t: 1\n".toList),
    (2, "processor\t: 2\ncore id\t\t: 2\n".toList), (3, "processor\t: 3\ncore id\t\t: 3\n".toList)],
   true, []⟩

/-- The tokens of the content `0-2,4`. -/
def tokensA : List Token := [.two ['0'] ['2'], .one ['4']]

/-- The tokens of the content `3,1,0`. -/
def tokensB : List Token := [.one ['3'], .one ['1'], .one ['0']]

/-- The tokens of the content `0-2,1`. -/
def tokensC : List Token := [.two ['0'] ['2'], .one ['1']]

/-! ## The contribution of a piece of arbitrary content -/

/-- The comma-separated pieces of the content of the cpuset file, after trimming. -/
def pieces (file : Option Text) : List Text := split ',' (TrimSpace (file.getD []))

/-- The ids a piece contributes: a one-part token the parsed number, a two-part
token `A-B` the ids `A, A+1, ..., B` (none when `A > B`), a token of more parts
nothing. -/
def pieceIds (P : ParseUint) (piece : Text) : List Nat :=
  match split '-' piece with
  | [x] => [P.run x]
  | [a, b] => List.range' (P.run a) (P.run b + 1 - P.run a)
  | _ => []

/-- The number of ids a piece contributes: one for a one-part token, `max(0, B-A+1)`
for a two-part token `A-B` (the subtraction of natural numbers stops at zero), none
for a token of more parts. -/
def pieceCount (P : ParseUint) (piece : Text) : Nat :=
  match split '-' piece with
  | [_] => 1
  | [a, b] => P.run b + 1 - P.run a
  | _ => 0

/-- The total number of ids contributed by the pieces of a content, duplicates
counted. -/
def contributedCount (P : ParseUint) (file : Option Text) : Nat :=
  ((pieces file).map (pieceCount P)).sum

/-- A piece that contributes no id: a two-part range whose parsed begin is greater
than its parsed end, or a token of more than two dash-separated parts. -/
def Malformed (P : ParseUint) (piece : Text) : Prop :=
  match split '-' piece with
  | [a, b] => P.run b < P.run a
  | parts => 2 < parts.length

instance Malformed.decidable (P : ParseUint) (piece : Text) : Decidable (Malformed P piece) := by
  unfold Malformed; split <;> infer_instance

/-! ## The catalog read back -/

/-- The records of a catalog concatenated in ascending order of their ids. -/
def Catalog.ascending (m : Catalog) : Text :=
  (sortInts m.keys).flatMap (fun k => (m.get? k).getD [])

/-- The number of empty lines obtained when a dump is split on line feeds. -/
def emptyLines (raw : Text) : Nat :=
  ((split '\n' raw).filter (fun line => decide (line.length = 0))).length

/-! ## Attr -/

/-- The fields of `fuse.Attr` that the method `Attr` assigns. -/
structure FuseAttr where
  /-- The inode number. -/
  Inode : Nat
  /-- The size in bytes. -/
  Size : Nat
  /-- The file mode. -/
  Mode : Nat
deriving DecidableEq, Repr

/-- The method `Attr`: the attributes after the call, the error (`none` is `nil`)
and the package state after the call; `none` is a run-time failure inside `ReadAll`.
The constant `INODE_CPUINFO` is declared outside this source file and is a
parameter.  The conversion `uint64(len(data))` keeps the value. -/
def Attr (P : ParseUint) (INODE_CPUINFO : Nat) (g : Globals) (file : Option Text)
    (order : List Nat) (a : FuseAttr) : Option (FuseAttr × Option Text × Globals) :=
  let a1 : FuseAttr := { a with Inode := INODE_CPUINFO }
  let a2 : FuseAttr := { a1 with Mode := 0o444 }
  match ReadAll P g file order with
  | none => none
  | some r => some ({ a2 with Size := r.data.length }, none, r.globals)

/-- The catalog built from `dumpTwo`: three records. -/
def globalsTwo : Globals := init true (some dumpTwo)

/-- A content whose pieces contribute no id: a reversed range and a token of three
parts. -/
def contentNoId : Text := "1-0,2-3-4\n".toList

/-! ## Records with a one-digit ordinal -/

/-- The parts of a per-CPU record whose ordinal line carries a number of one digit:
the text before the label, the white space on either side of the colon, the digit,
and the text after the digit. -/
structure OneDigitBlock where
  /-- The text before the label `processor`. -/
  pre : Text
  /-- The white space between the label and the colon. -/
  ws1 : Text
  /-- The white space between the colon and the number. -/
  ws2 : Text
  /-- The digit. -/
  d : Char
  /-- The text after the digit. -/
  rest : Text
deriving DecidableEq, Repr

namespace OneDigitBlock

/-- The text of the record. -/
def text (b : OneDigitBlock) : Text :=
  b.pre ++ ("processor".toList ++ (b.ws1 ++ ':' :: (b.ws2 ++ b.d :: b.rest)))

/-- The parts are those of a record with a one-digit ordinal: no `p` before the
label, non-empty white space on either side of the colon, a digit that no further
digit follows, and no other occurrence of the pattern after it. -/
def OK (b : OneDigitBlock) : Prop :=
  'p' ∉ b.pre ∧ b.ws1 ≠ [] ∧ (∀ c ∈ b.ws1, reSpace c = true) ∧
  b.ws2 ≠ [] ∧ (∀ c ∈ b.ws2, reSpace c = true) ∧ isDigit b.d = true ∧
  (∀ c ∈ b.rest.take 1, isDigit c = false) ∧ ∀ t ∈ b.rest.tails, matchAt t = none

/-- The record with its ordinal line reading the label left-aligned in 16 columns,
a colon, a space and the decimal of `j`, the rest unchanged. -/
def withOrdinal (b : OneDigitBlock) (j : Nat) : Text := b.pre ++ (Sprintf j ++ b.rest)

end OneDigitBlock

instance OneDigitBlock.decidableOK (b : OneDigitBlock) : Decidable b.OK := by
  unfold OneDigitBlock.OK; infer_instance

/-- The record of the host id `k` in the sample catalogs. -/
def hostRecord (k : Nat) : Text :=
  "processor\t: ".toList ++ decimal k ++ "\ncore id\t\t: ".toList ++ decimal k ++ ['\n']

/-- The parts of `hostRecord k` for a host id of one digit. -/
def hostBlock (k : Nat) : OneDigitBlock :=
  ⟨[], ['\t'], [' '], Char.ofNat (48 + k), "\ncore id\t\t: ".toList ++ decimal k ++ ['\n']⟩

/-- A catalog with records for the host ids 0 to 12. -/
def globalsThirteen : Globals :=
  ⟨(List.range 13).map (fun k => (k, hostRecord k)), true, []⟩

/-! ## Lemmas on text -/

theorem split_of_not_mem (sep : Char) (w : Text) (h : sep ∉ w) : split sep w = [w] := by
  induction w with
  | nil => rfl
  | cons c cs ih =>
    have hc : c ≠ sep := fun e => h (e ▸ List.mem_cons_self _ _)
    have hcs : sep ∉ cs := fun m => h (List.mem_cons_of_mem _ m)
    simp [split, hc, ih hcs]

theorem split_append_sep (sep : Char) (w rest : Text) (h : sep ∉ w) :
    split sep (w ++ sep :: rest) = w :: split sep rest := by
  induction w with
  | nil => simp [split]
  | cons c cs ih =>
    have hc : c ≠ sep := fun e => h (e ▸ List.mem_cons_self _ _)
    have hcs : sep ∉ cs := fun m => h (List.mem_cons_of_mem _ m)
    simp [split, hc, ih hcs]

theorem intercalate_cons_cons (sep a b : Text) (l : List Text) :
    List.intercalate sep (a :: b :: l) = a ++ sep ++ List.intercalate sep (b :: l) := by
  simp [List.intercalate, List.intersperse]

theorem split_intercalate (sep : Char) (ws : List Text) (hne : ws ≠ [])
    (h : ∀ w ∈ ws, sep ∉ w) : split sep (List.intercalate [sep] ws) = ws := by
  induction ws with
  | nil => exact absurd rfl hne
  | cons a l ih =>
    cases l with
    | nil =>
      have : List.intercalate [sep] [a] = a := by simp [List.intercalate, List.intersperse]
      rw [this]
      exact split_of_not_mem sep a (h a (List.mem_cons_self _ _))
    | cons b l =>
      rw [intercalate_cons_cons, List.append_assoc, List.singleton_append,
        split_append_sep sep a _ (h a (List.mem_cons_self _ _)),
        ih (by simp) (fun w hw => h w (List.mem_cons_of_mem _ hw))]

theorem dropWhile_eq_self_of_all_false {p : Char → Bool} (s : Text)
    (h : ∀ c ∈ s, p c = false) : s.dropWhile p = s := by
  cases s with
  | nil => rfl
  | cons a l => simp [List.dropWhile, h a (List.mem_cons_self _ _)]

theorem TrimSpace_eq_self (s : Text) (h : ∀ c ∈ s, isSpace c = false) : TrimSpace s = s := by
  unfold TrimSpace
  rw [dropWhile_eq_self_of_all_false s h,
    dropWhile_eq_self_of_all_false s.reverse (fun c hc => h c (List.mem_reverse.mp hc)),
    List.reverse_reverse]

/-! ## Lemmas on `getCpuSets` -/

theorem isSpace_false_of_isDigit (c : Char) (h : isDigit c = true) : isSpace c = false := by
  simp only [isDigit, Bool.and_eq_true, decide_eq_true_eq] at h
  simp only [isSpace, Bool.or_eq_false_iff, Bool.and_eq_false_iff, decide_eq_false_iff_not]
  omega

theorem ne_of_isDigit (c d : Char) (h : isDigit c = true) (hd : isDigit d = false) : d ≠ c := by
  intro e
  rw [e, h] at hd
  exact Bool.noConfusion hd

theorem Digits.not_mem (s : Text) (h : Digits s) (d : Char) (hd : isDigit d = false) : d ∉ s :=
  fun hm => ne_of_isDigit d d (h.2 d hm) hd rfl

theorem rangeLoop_eq (last : Nat) : ∀ (free i : Nat) (w : List Nat), i ≤ last + 1 →
    last + 1 - i ≤ free →
    rangeLoop last free i w = some ⟨w ++ List.range' i (last + 1 - i), free - (last + 1 - i)⟩ := by
  intro free
  induction free with
  | zero =>
    intro i w h1 h2
    have hi : i = last + 1 := by omega
    subst hi
    simp [rangeLoop]
  | succ f ih =>
    intro i w h1 h2
    by_cases hle : i ≤ last
    · have hk : last + 1 - i = (last + 1 - (i + 1)) + 1 := by omega
      rw [rangeLoop, if_pos hle, ih (i + 1) (w ++ [i]) (by omega) (by omega), hk,
        List.range'_succ]
      simp
    · have hi : i = last + 1 := by omega
      subst hi
      simp [rangeLoop]

theorem Token.text_no_comma (t : Token) (h : t.WellFormed) : ',' ∉ t.text := by
  cases t with
  | one n => exact Digits.not_mem n h ',' (by decide)
  | two a b =>
    intro hm
    rcases List.mem_append.mp hm with ha | hb
    · exact Digits.not_mem a h.1 ',' (by decide) ha
    · rcases List.mem_cons.mp hb with e | hb
      · exact absurd e (by decide)
      · exact Digits.not_mem b h.2.1 ',' (by decide) hb

theorem Token.text_no_space (t : Token) (h : t.WellFormed) : ∀ c ∈ t.text, isSpace c = false := by
  cases t with
  | one n => exact fun c hc => isSpace_false_of_isDigit c (h.2 c hc)
  | two a b =>
    intro c hm
    rcases List.mem_append.mp hm with ha | hb
    · exact isSpace_false_of_isDigit c (h.1.2 c ha)
    · rcases List.mem_cons.mp hb with e | hb
      · subst e; decide
      · exact isSpace_false_of_isDigit c (h.2.1.2 c hb)

theorem perToken_text (P : ParseUint) (t : Token) (h : t.WellFormed)
    (hp : ∀ d ∈ t.parts, P.run d = decValue d) (st : Work)
    (hcap : t.ids.length ≤ st.free) :
    perToken P st t.text = some ⟨st.written ++ t.ids, st.free - t.ids.length⟩ := by
  cases t with
  | one n =>
    have hs : split '-' n = [n] := split_of_not_mem _ _ (Digits.not_mem n h '-' (by decide))
    have hn : P.run n = decValue n := hp n (by simp [Token.parts])
    obtain ⟨w, f⟩ := st
    simp only [Token.ids, List.length_singleton] at hcap ⊢
    cases f with
    | zero => omega
    | succ f => simp [perToken, Token.text, hs, store, hn]
  | two a b =>
    have hs : split '-' (a ++ '-' :: b) = [a, b] := by
      rw [split_append_sep _ _ _ (Digits.not_mem a h.1 '-' (by decide)),
        split_of_not_mem _ _ (Digits.not_mem b h.2.1 '-' (by decide))]
    have ha : P.run a = decValue a := hp a (by simp [Token.parts])
    have hb : P.run b = decValue b := hp b (by simp [Token.parts])
    simp only [Token.ids, List.length_range'] at hcap ⊢
    simp only [perToken, Token.text, hs, ha, hb]
    exact rangeLoop_eq _ _ _ _ (by have := h.2.2; omega) hcap

theorem tokenLoop_texts (P : ParseUint) : ∀ (ts : List Token) (st : Work),
    (∀ t ∈ ts, t.WellFormed) → (∀ t ∈ ts, ∀ d ∈ t.parts, P.run d = decValue d) →
    (contributed ts).length ≤ st.free →
    tokenLoop P (ts.map Token.text) st =
      some ⟨st.written ++ contributed ts, st.free - (contributed ts).length⟩ := by
  intro ts
  induction ts with
  | nil => intro st _ _ _; simp [tokenLoop, contributed]
  | cons t ts ih =>
    intro st hwf hp hcap
    have hlen : (contributed (t :: ts)).length = t.ids.length + (contributed ts).length := by
      simp [contributed]
    rw [hlen] at hcap
    rw [List.map_cons, tokenLoop,
      perToken_text P t (hwf t (List.mem_cons_self _ _)) (hp t (List.mem_cons_self _ _)) st
        (by omega)]
    simp only
    rw [ih _ (fun u hu => hwf u (List.mem_cons_of_mem _ hu))
      (fun u hu => hp u (List.mem_cons_of_mem _ hu)) (by simp only; omega), hlen]
    simp [contributed, Nat.sub_sub]

theorem cpusetText_no_space (ts : List Token) (hwf : ∀ t ∈ ts, t.WellFormed) :
    ∀ c ∈ cpusetText ts, isSpace c = false := by
  induction ts with
  | nil => intro c hc; simp [cpusetText, List.intercalate] at hc
  | cons t l ih =>
    cases l with
    | nil =>
      intro c hc
      have : cpusetText [t] = t.text := by simp [cpusetText, List.intercalate, List.intersperse]
      rw [this] at hc
      exact Token.text_no_space t (hwf t (List.mem_cons_self _ _)) c hc
    | cons u l =>
      intro c hc
      have e : cpusetText (t :: u :: l) = t.text ++ [','] ++ cpusetText (u :: l) := by
        simp only [cpusetText, List.map_cons]
        exact intercalate_cons_cons _ _ _ _
      rw [e] at hc
      rcases List.mem_append.mp hc with h1 | h2
      · rcases List.mem_append.mp h1 with h3 | h4
        · exact Token.text_no_space t (hwf t (List.mem_cons_self _ _)) c h3
        · rw [List.mem_singleton.mp h4]; decide
      · exact ih (fun v hv => hwf v (List.mem_cons_of_mem _ hv)) c h2

/-- On well-formed content with room for all ids, `getCpuSets` returns the sorted
list of the contributed ids. -/
theorem getCpuSets_cpusetText (P : ParseUint) (g : Globals) (ts : List Token) (hne : ts ≠ [])
    (hwf : ∀ t ∈ ts, t.WellFormed) (hp : ∀ t ∈ ts, ∀ d ∈ t.parts, P.run d = decValue d)
    (hcap : (contributed ts).length ≤ g.cpuinfo.len) :
    getCpuSets P g (some (cpusetText ts)) = some (sortInts (contributed ts)) := by
  have hs : split ',' (cpusetText ts) = ts.map Token.text := by
    apply split_intercalate
    · simpa using hne
    · intro w hw
      obtain ⟨t, ht, rfl⟩ := List.mem_map.mp hw
      exact Token.text_no_comma t (hwf t ht)
  simp only [getCpuSets, Option.getD_some, TrimSpace_eq_self _ (cpusetText_no_space ts hwf), hs]
  rw [tokenLoop_texts P ts ⟨[], g.cpuinfo.len⟩ hwf hp hcap]
  simp

/-! ## Lemmas on the field rewrite -/

theorem dropLiteral_append (l x : Text) : dropLiteral l (l ++ x) = some x := by
  induction l with
  | nil => simp [dropLiteral]
  | cons a l ih => simp [dropLiteral, ih]

theorem spaces1_run (ws : Text) (c : Char) (rest : Text) (hne : ws ≠ [])
    (hws : ∀ a ∈ ws, reSpace a = true) (hc : reSpace c = false) :
    spaces1 (ws ++ c :: rest) = some (ws.length, c :: rest) := by
  have ht : (ws ++ c :: rest).takeWhile reSpace = ws := by
    induction ws with
    | nil => simp [List.takeWhile, hc]
    | cons a l ih =>
      cases l with
      | nil => simp [List.takeWhile, hc, hws a (List.mem_cons_self _ _)]
      | cons b l =>
        have := ih (by simp) (fun x hx => hws x (List.mem_cons_of_mem _ hx))
        simp only [List.cons_append] at this ⊢
        rw [List.takeWhile_cons, hws a (List.mem_cons_self _ _)]
        simp [this]
  have hd : (ws ++ c :: rest).dropWhile reSpace = c :: rest := by
    clear ht hne
    induction ws with
    | nil => simp [List.dropWhile, hc]
    | cons a l ih =>
      have := ih (fun x hx => hws x (List.mem_cons_of_mem _ hx))
      simp only [List.cons_append]
      rw [List.dropWhile_cons, hws a (List.mem_cons_self _ _)]
      simpa using this
  unfold spaces1
  rw [ht, hd]
  cases ws with
  | nil => exact absurd rfl hne
  | cons a l => simp

theorem replaceFrom_skip (repl : Text) : ∀ (xs rest : Text),
    replaceFrom repl xs.length (xs ++ rest) = replaceFrom repl 0 rest := by
  intro xs
  induction xs with
  | nil => intro rest; rfl
  | cons x xs ih => intro rest; simpa [replaceFrom] using ih rest

theorem matchAt_ordinal (ws1 ws2 : Text) (d : Char) (rest : Text)
    (h1 : ws1 ≠ []) (h1s : ∀ a ∈ ws1, reSpace a = true)
    (h2 : ws2 ≠ []) (h2s : ∀ a ∈ ws2, reSpace a = true) (hd : isDigit d = true) :
    matchAt ("processor".toList ++ (ws1 ++ ':' :: (ws2 ++ d :: rest))) =
      some (9 + ws1.length + 1 + ws2.length + 1) := by
  have hdsp : reSpace d = false := by
    simp only [isDigit, Bool.and_eq_true, decide_eq_true_eq] at hd
    simp only [reSpace, Bool.or_eq_false_iff, decide_eq_false_iff_not]
    omega
  unfold matchAt
  rw [dropLiteral_append]
  simp only
  rw [spaces1_run ws1 ':' _ h1 h1s (by decide)]
  simp only
  rw [spaces1_run ws2 d _ h2 h2s hdsp]
  simp [hd]

theorem ReplaceAllString_ordinal (ws1 ws2 : Text) (d : Char) (rest repl : Text)
    (h1 : ws1 ≠ []) (h1s : ∀ a ∈ ws1, reSpace a = true)
    (h2 : ws2 ≠ []) (h2s : ∀ a ∈ ws2, reSpace a = true) (hd : isDigit d = true) :
    ReplaceAllString ("processor".toList ++ (ws1 ++ ':' :: (ws2 ++ d :: rest))) repl =
      repl ++ ReplaceAllString rest repl := by
  have hm := matchAt_ordinal ws1 ws2 d rest h1 h1s h2 h2s hd
  have e : "processor".toList ++ (ws1 ++ ':' :: (ws2 ++ d :: rest)) =
      'p' :: (("rocessor".toList ++ (ws1 ++ ':' :: (ws2 ++ [d]))) ++ rest) := by
    simp
  rw [e] at hm ⊢
  unfold ReplaceAllString
  rw [replaceFrom, hm]
  simp only
  have hl : 9 + ws1.length + 1 + ws2.length + 1 - 1 =
      ("rocessor".toList ++ (ws1 ++ ':' :: (ws2 ++ [d]))).length := by
    simp; omega
  rw [hl, replaceFrom_skip]

theorem replaceFrom_digits (repl : Text) : ∀ (ds rest : Text), (∀ c ∈ ds, isDigit c = true) →
    replaceFrom repl 0 (ds ++ rest) = ds ++ replaceFrom repl 0 rest := by
  intro ds
  induction ds with
  | nil => intro rest _; rfl
  | cons c cs ih =>
    intro rest h
    have hc : 'p' ≠ c := by
      intro e
      have := h c (List.mem_cons_self _ _)
      rw [← e] at this
      exact absurd this (by decide)
    have hm : matchAt (c :: (cs ++ rest)) = none := by
      have hl : "processor".toList = 'p' :: "rocessor".toList := rfl
      simp [matchAt, hl, dropLiteral, hc]
    rw [List.cons_append, replaceFrom, hm]
    simp only
    rw [ih rest (fun x hx => h x (List.mem_cons_of_mem _ hx))]
    rfl

/-! ## Lemmas on `getCpuInfo` -/

theorem renderLoop_eq (m : Catalog) : ∀ (ids : List Nat) (i : Nat) (buf : Text),
    renderLoop m i ids buf =
      buf ++ ((ids.enumFrom i).map (fun p => emitted m p.1 p.2)).flatten := by
  intro ids
  induction ids with
  | nil => intro i buf; simp [renderLoop]
  | cons id ids ih =>
    intro i buf
    cases h : m.get? id with
    | some info => simp [renderLoop, h, ih, emitted]
    | none => simp [renderLoop, h, ih, emitted]

theorem getCpuInfo_fst_of_ne_nil (g : Globals) (order s : List Nat) (hne : s ≠ []) :
    (getCpuInfo g order s).1 = (s.enum.map (fun p => emitted g.cpuinfo p.1 p.2)).flatten := by
  have hlen : s.length ≠ 0 := fun h => hne (List.length_eq_zero.mp h)
  simp [getCpuInfo, hlen, renderLoop_eq, List.enum]

theorem getCpuInfo_eq_of_fst (g : Globals) (o1 o2 s1 s2 : List Nat)
    (h : (getCpuInfo g o1 s1).1 = (getCpuInfo g o2 s2).1) :
    getCpuInfo g o1 s1 = getCpuInfo g o2 s2 := by
  simp only [getCpuInfo] at h ⊢
  rw [h]

theorem sorted_filter_lt (n : Nat) : ∀ s : List Nat, s.Sorted (· ≤ ·) →
    ∃ rest, s = s.filter (fun id => decide (id < n)) ++ rest ∧ ∀ a ∈ rest, n ≤ a := by
  intro s
  induction s with
  | nil => intro _; exact ⟨[], by simp⟩
  | cons a l ih =>
    intro hs
    obtain ⟨hal, hl⟩ := List.sorted_cons.mp hs
    by_cases ha : a < n
    · obtain ⟨rest, e, hr⟩ := ih hl
      refine ⟨rest, ?_, hr⟩
      rw [List.filter_cons_of_pos (by simpa using ha), List.cons_append, ← e]
    · refine ⟨a :: l, ?_, ?_⟩
      · have hnil : (a :: l).filter (fun id => decide (id < n)) = [] := by
          rw [List.filter_eq_nil_iff]
          intro b hb
          rcases List.mem_cons.mp hb with rfl | hb
          · simpa using ha
          · have := hal b hb
            simp only [decide_eq_true_eq]
            omega
        rw [hnil, List.nil_append]
      · intro b hb
        rcases List.mem_cons.mp hb with rfl | hb
        · omega
        · have := hal b hb
          omega

theorem flatten_emitted_absent (m : Catalog) : ∀ (rest : List Nat) (k : Nat),
    (∀ a ∈ rest, m.get? a = none) →
    ((rest.enumFrom k).map (fun p => emitted m p.1 p.2)).flatten = [] := by
  intro rest
  induction rest with
  | nil => intro k _; rfl
  | cons a l ih =>
    intro k h
    have ha : emitted m k a = [] := by simp [emitted, h a (List.mem_cons_self _ _)]
    simp [ha, ih (k + 1) (fun b hb => h b (List.mem_cons_of_mem _ hb))]

/-! ## Lemmas on the startup routine -/

theorem lookup_filter_ne (k j : Nat) : ∀ m : Catalog,
    List.lookup j (m.filter (fun e => decide (e.1 ≠ k))) = if j = k then none else List.lookup j m := by
  intro m
  induction m with
  | nil => simp
  | cons e m ih =>
    obtain ⟨a, v⟩ := e
    by_cases hak : a = k
    · subst hak
      by_cases hj : j = a
      · subst hj; simpa using ih
      · have hb : (j == a) = false := by simpa using hj
        simp only [ne_eq, decide_not] at ih
        simp only [ne_eq, decide_not, decide_True, Bool.not_true, Bool.false_eq_true,
          not_false_eq_true, List.filter_cons_of_neg, List.lookup_cons, hb, hj, if_false]
        simpa [hj] using ih
    · by_cases hj : j = a
      · subst hj
        simp [List.lookup_cons, hak]
      · have hb : (j == a) = false := by simpa using hj
        simp only [ne_eq, decide_not] at ih
        simp [List.lookup_cons, hak, hb]
        simpa using ih

theorem Catalog.get?_set (m : Catalog) (k : Nat) (v : Text) (j : Nat) :
    (m.set k v).get? j = if j = k then some v else m.get? j := by
  unfold Catalog.set Catalog.get?
  rw [List.lookup_append, lookup_filter_ne]
  by_cases hj : j = k
  · subst hj; simp [List.lookup_cons]
  · have hb : (j == k) = false := by simpa using hj
    simp [List.lookup_cons, hj, hb]

theorem scanLine_nil (st : Scan) :
    scanLine st [] = ⟨st.cpuinfo.set st.count st.buffer, st.count + 1, ['\n']⟩ := by
  simp [scanLine]

theorem foldl_scanLine_lines : ∀ (b : List Text) (st : Scan), (∀ l ∈ b, l ≠ []) →
    b.foldl scanLine st = ⟨st.cpuinfo, st.count, st.buffer ++ blockLines b⟩ := by
  intro b
  induction b with
  | nil => intro st _; simp [blockLines]
  | cons l ls ih =>
    intro st h
    have hl : l.length ≠ 0 := fun e => h l (List.mem_cons_self _ _) (List.length_eq_zero.mp e)
    rw [List.foldl_cons, ih _ (fun x hx => h x (List.mem_cons_of_mem _ hx))]
    simp [scanLine, hl, blockLines]

theorem split_blockLines : ∀ (b : Block) (rest : Text), (∀ l ∈ b, '\n' ∉ l) →
    split '\n' (blockLines b ++ rest) = b ++ split '\n' rest := by
  intro b
  induction b with
  | nil => intro rest _; simp [blockLines]
  | cons l ls ih =>
    intro rest h
    have e : blockLines (l :: ls) ++ rest = l ++ '\n' :: (blockLines ls ++ rest) := by
      simp [blockLines]
    rw [e, split_append_sep _ _ _ (h l (List.mem_cons_self _ _)),
      ih rest (fun x hx => h x (List.mem_cons_of_mem _ hx))]
    rfl

theorem split_dumpText : ∀ bs : List Block, (∀ b ∈ bs, BlockOK b) →
    split '\n' (dumpText bs) = dumpLines bs := by
  intro bs
  induction bs with
  | nil => intro _; rfl
  | cons b bs ih =>
    intro h
    have e : dumpText (b :: bs) = blockLines b ++ '\n' :: dumpText bs := by
      simp [dumpText, blockText]
    have hb := h b (List.mem_cons_self _ _)
    rw [e, split_blockLines b _ (fun l hl => (hb.2 l hl).2)]
    have e2 : split '\n' ('\n' :: dumpText bs) = [] :: split '\n' (dumpText bs) := by
      simp [split]
    rw [e2, ih (fun x hx => h x (List.mem_cons_of_mem _ hx))]
    simp [dumpLines]

theorem scan_dumpLines : ∀ (bs : List Block) (st : Scan), (∀ b ∈ bs, BlockOK b) →
    (∀ k, k < st.count →
      ((dumpLines bs).foldl scanLine st).cpuinfo.get? k = st.cpuinfo.get? k) ∧
    (∀ (j : Nat) (b : Block), bs[j]? = some b →
      ((dumpLines bs).foldl scanLine st).cpuinfo.get? (st.count + j) =
        some ((if j = 0 then st.buffer else ['\n']) ++ blockLines b)) := by
  intro bs
  induction bs with
  | nil =>
    intro st _
    refine ⟨?_, ?_⟩
    · intro k hk
      have hne : k ≠ st.count := by omega
      simp [dumpLines, scanLine_nil, Catalog.get?_set, hne]
    · intro j b hb
      simp at hb
  | cons b bs ih =>
    intro st h
    have hb := h b (List.mem_cons_self _ _)
    have hfold : (dumpLines (b :: bs)).foldl scanLine st =
        (dumpLines bs).foldl scanLine
          ⟨st.cpuinfo.set st.count (st.buffer ++ blockLines b), st.count + 1, ['\n']⟩ := by
      have e : dumpLines (b :: bs) = b ++ ([] :: dumpLines bs) := by simp [dumpLines]
      rw [e, List.foldl_append, foldl_scanLine_lines b st (fun l hl => (hb.2 l hl).1),
        List.foldl_cons, scanLine_nil]
    obtain ⟨ih1, ih2⟩ := ih
      ⟨st.cpuinfo.set st.count (st.buffer ++ blockLines b), st.count + 1, ['\n']⟩
      (fun x hx => h x (List.mem_cons_of_mem _ hx))
    rw [hfold]
    refine ⟨?_, ?_⟩
    · intro k hk
      have hne : k ≠ st.count := by omega
      rw [ih1 k (by simp only; omega)]
      simp [Catalog.get?_set, hne]
    · intro j c hc
      cases j with
      | zero =>
        simp only [List.getElem?_cons_zero, Option.some.injEq] at hc
        subst hc
        simpa [Catalog.get?_set] using ih1 st.count (by simp only; omega)
      | succ j =>
        simp only [List.getElem?_cons_succ] at hc
        have := ih2 j c hc
        simp only at this
        rw [show st.count + (j + 1) = st.count + 1 + j by omega, this]
        simp

theorem globalsFour_ids (id : Nat) :
    (globalsFour.cpuinfo.get? id).isSome = true ↔ id < 4 := by
  rcases id with _ | _ | _ | _ | id
  · simp [globalsFour, Catalog.get?, List.lookup_cons]
  · simp [globalsFour, Catalog.get?, List.lookup_cons]
  · simp [globalsFour, Catalog.get?, List.lookup_cons]
  · simp [globalsFour, Catalog.get?, List.lookup_cons]
  · have h0 : (id + 1 + 1 + 1 + 1 == 0) = false := by simp
    have h1 : (id + 1 + 1 + 1 + 1 == 1) = false := by simp
    have h2 : (id + 1 + 1 + 1 + 1 == 2) = false := by simp
    have h3 : (id + 1 + 1 + 1 + 1 == 3) = false := by simp
    simp [globalsFour, Catalog.get?, List.lookup_cons, h0, h1, h2, h3]

/-! ## The parser: claims on `getCpuSets` -/

/-- C1: on a comma-separated list of well-formed tokens, when `parseUint` returns
the decimal value of the numbers of the tokens and the catalog has at least as many
records as ids are contributed, `getCpuSets` returns the contributed ids (with
multiplicity) in ascending order, and the result does not depend on the order of
the tokens. -/
theorem getCpuSets_sorted_contributed (P : ParseUint) (g : Globals) (ts : List Token)
    (hne : ts ≠ []) (hwf : ∀ t ∈ ts, t.WellFormed)
    (hp : ∀ t ∈ ts, ∀ d ∈ t.parts, P.run d = decValue d)
    (hcap : (contributed ts).length ≤ g.cpuinfo.len) :
    (∃ ids, getCpuSets P g (some (cpusetText ts)) = some ids ∧
      ids.Sorted (· ≤ ·) ∧ ids.Perm (contributed ts)) ∧
    ∀ ts2 : List Token, ts2.Perm ts →
      getCpuSets P g (some (cpusetText ts2)) = getCpuSets P g (some (cpusetText ts)) := by
  refine ⟨⟨_, getCpuSets_cpusetText P g ts hne hwf hp hcap,
    List.sorted_insertionSort _ _, List.perm_insertionSort _ _⟩, ?_⟩
  intro ts2 hperm
  have hc : (contributed ts2).Perm (contributed ts) := List.Perm.flatMap_right _ hperm
  rw [getCpuSets_cpusetText P g ts hne hwf hp hcap,
    getCpuSets_cpusetText P g ts2 (fun e => hne (by simpa [e] using hperm.symm))
      (fun t ht => hwf t (hperm.mem_iff.mp ht)) (fun t ht => hp t (hperm.mem_iff.mp ht))
      (by rw [hc.length_eq]; exact hcap)]
  congr 1
  exact List.eq_of_perm_of_sorted
    (((List.perm_insertionSort _ _).trans hc).trans (List.perm_insertionSort _ _).symm)
    (List.sorted_insertionSort (· ≤ ·) _) (List.sorted_insertionSort (· ≤ ·) _)

/-- C1 at the content `0-2,4` over a catalog of four records: the result is
`[0,1,2,4]`; and the content `3,1,0` gives `[0,1,3]`. -/
theorem getCpuSets_sorted_contributed_witness :
    (tokensA ≠ [] ∧ (∀ t ∈ tokensA, t.WellFormed) ∧
      (∀ t ∈ tokensA, ∀ d ∈ t.parts, parseUint.run d = decValue d) ∧
      (contributed tokensA).length ≤ globalsFour.cpuinfo.len) ∧
    ((∃ ids, getCpuSets parseUint globalsFour (some (cpusetText tokensA)) = some ids ∧
        ids.Sorted (· ≤ ·) ∧ ids.Perm (contributed tokensA)) ∧
      ∀ ts2 : List Token, ts2.Perm tokensA →
        getCpuSets parseUint globalsFour (some (cpusetText ts2)) =
          getCpuSets parseUint globalsFour (some (cpusetText tokensA))) ∧
    (cpusetText tokensA = "0-2,4".toList ∧
      getCpuSets parseUint globalsFour (some "0-2,4".toList) = some [0, 1, 2, 4] ∧
      cpusetText tokensB = "3,1,0".toList ∧
      getCpuSets parseUint globalsFour (some "3,1,0".toList) = some [0, 1, 3]) :=
  ⟨⟨by decide, by decide, by decide, by decide⟩,
    getCpuSets_sorted_contributed parseUint globalsFour tokensA (by decide) (by decide)
      (by decide) (by decide),
    by decide, by decide, by decide, by decide⟩

/-- C7, on the code: for every `parseUint` and every catalog, empty content and an
unreadable file never yield the empty sequence: the single empty piece is a one-part
token and one id is stored for it (`[0]` over the catalog of four records, as for
content of white space only), or the store is out of range over an empty catalog. -/
theorem getCpuSets_empty_content (P : ParseUint) (g : Globals) :
    getCpuSets P g (some []) ≠ some [] ∧ getCpuSets P g none ≠ some [] ∧
    getCpuSets parseUint globalsFour (some []) = some [0] ∧
    getCpuSets parseUint globalsFour (some " \t\n".toList) = some [0] ∧
    getCpuSets parseUint globalsFour none = some [0] ∧
    getCpuSets parseUint ⟨[], true, []⟩ (some []) = none := by
  have key : ∀ f : Option Text, f.getD [] = [] → getCpuSets P g f ≠ some [] := by
    intro f hf
    simp only [getCpuSets, hf]
    cases hlen : g.cpuinfo.len with
    | zero => simp [TrimSpace, split, tokenLoop, perToken, store]
    | succ k => simp [TrimSpace, split, tokenLoop, perToken, store, sortInts]
  exact ⟨key _ rfl, key _ rfl, by decide, by decide, by decide, by decide⟩

/-- C8, as stated, fails: the well-formed content `0-2,1` yields `[0,1,1,2]`, which
repeats the id 1. -/
theorem getCpuSets_duplicate_ids :
    (∀ t ∈ tokensC, t.WellFormed) ∧ cpusetText tokensC = "0-2,1".toList ∧
    getCpuSets parseUint globalsFour (some "0-2,1".toList) = some [0, 1, 1, 2] ∧
    ¬ List.Sorted (· < ·) [0, 1, 1, 2] := by
  decide

/-- C8, amended: on well-formed content (hypotheses of C1) the sequence returned by
`getCpuSets` is ascending; it is strictly increasing exactly when no id is
contributed twice, duplicates being kept. -/
theorem getCpuSets_ascending (P : ParseUint) (g : Globals) (ts : List Token)
    (hne : ts ≠ []) (hwf : ∀ t ∈ ts, t.WellFormed)
    (hp : ∀ t ∈ ts, ∀ d ∈ t.parts, P.run d = decValue d)
    (hcap : (contributed ts).length ≤ g.cpuinfo.len) :
    ∃ ids, getCpuSets P g (some (cpusetText ts)) = some ids ∧ ids.Sorted (· ≤ ·) ∧
      (ids.Sorted (· < ·) ↔ (contributed ts).Nodup) := by
  refine ⟨_, getCpuSets_cpusetText P g ts hne hwf hp hcap, List.sorted_insertionSort _ _, ?_⟩
  have hperm : (sortInts (contributed ts)).Perm (contributed ts) := List.perm_insertionSort _ _
  constructor
  · intro h
    exact hperm.nodup_iff.mp h.nodup
  · intro h
    exact (List.sorted_insertionSort (· ≤ ·) _).lt_of_le (hperm.nodup_iff.mpr h)

/-- C8, amended, at the content `0-2,4`: the result is ascending and, no id being
contributed twice, strictly increasing. -/
theorem getCpuSets_ascending_witness :
    (tokensA ≠ [] ∧ (∀ t ∈ tokensA, t.WellFormed) ∧
      (∀ t ∈ tokensA, ∀ d ∈ t.parts, parseUint.run d = decValue d) ∧
      (contributed tokensA).length ≤ globalsFour.cpuinfo.len) ∧
    ∃ ids, getCpuSets parseUint globalsFour (some (cpusetText tokensA)) = some ids ∧
      ids.Sorted (· ≤ ·) ∧ (ids.Sorted (· < ·) ↔ (contributed tokensA).Nodup) :=
  ⟨⟨by decide, by decide, by decide, by decide⟩,
    getCpuSets_ascending parseUint globalsFour tokensA (by decide) (by decide) (by decide)
      (by decide)⟩

/-! ## The field rewrite -/

/-- C4, on the code: the pattern ends in a single `\d`, so the rewrite replaces the
label, the colon and only the FIRST digit `d` of the number.  For every block whose
ordinal line is the label, white space, a colon, white space and a number `d ds`,
and every index `i`, the rewritten line is the new field followed by the remaining
digits `ds` of the old number. -/
theorem rewrite_replaces_first_digit_only (ws1 ws2 : Text) (d : Char) (ds rest : Text)
    (i : Nat) (h1 : ws1 ≠ []) (h1s : ∀ a ∈ ws1, reSpace a = true)
    (h2 : ws2 ≠ []) (h2s : ∀ a ∈ ws2, reSpace a = true)
    (hd : isDigit d = true) (hds : ∀ c ∈ ds, isDigit c = true) :
    ReplaceAllString ("processor".toList ++ (ws1 ++ ':' :: (ws2 ++ d :: (ds ++ rest))))
        (Sprintf i) =
      Sprintf i ++ (ds ++ ReplaceAllString rest (Sprintf i)) := by
  rw [ReplaceAllString_ordinal ws1 ws2 d (ds ++ rest) (Sprintf i) h1 h1s h2 h2s hd]
  unfold ReplaceAllString
  rw [replaceFrom_digits (Sprintf i) ds rest hds]

/-- C4, on the code, at the block of host id 12 and the index 3: the line becomes
`processor       : 32`, the new index followed by the old second digit. -/
theorem rewrite_replaces_first_digit_only_witness :
    ((['\t'] : Text) ≠ [] ∧ (∀ a ∈ (['\t'] : Text), reSpace a = true) ∧
      ([' '] : Text) ≠ [] ∧ (∀ a ∈ ([' '] : Text), reSpace a = true) ∧
      isDigit '1' = true ∧ (∀ c ∈ (['2'] : Text), isDigit c = true)) ∧
    ReplaceAllString ("processor".toList ++ (['\t'] ++ ':' :: ([' '] ++ '1' ::
        (['2'] ++ "\ncore id\t\t: 12\n".toList)))) (Sprintf 3) =
      Sprintf 3 ++ (['2'] ++ ReplaceAllString "\ncore id\t\t: 12\n".toList (Sprintf 3)) ∧
    ReplaceAllString "processor\t: 12\ncore id\t\t: 12\n".toList (Sprintf 3) =
      "processor       : 32\ncore id\t\t: 12\n".toList :=
  ⟨⟨by decide, by decide, by decide, by decide, by decide, by decide⟩,
    rewrite_replaces_first_digit_only ['\t'] [' '] '1' ['2'] "\ncore id\t\t: 12\n".toList 3
      (by decide) (by decide) (by decide) (by decide) (by decide) (by decide),
    by decide⟩

/-! ## ReadAll -/

/-- C5, on the code: with a catalog of three records and the content `0-3`, which
lists four ids, `ReadAll` stops with an index out of range; so it does over an
empty catalog whatever the file holds. -/
theorem ReadAll_out_of_range :
    (init true (some dumpTwo)).cpuinfo.len = 3 ∧
    ReadAll parseUint (init true (some dumpTwo)) (some "0-3\n".toList) [0, 1, 2] = none ∧
    (init true (some "x".toList)).cpuinfo.len = 0 ∧
    ReadAll parseUint (init true (some "x".toList)) none [] = none := by
  decide

/-- C6, on the code: with an unreadable or empty cpuset file the selection is `[0]`,
not empty; over the catalog of `dumpTwo` (three records) `ReadAll` returns the
record of id 0 alone, its ordinal rewritten, and not the whole catalog. -/
theorem ReadAll_unreadable_file :
    (init true (some dumpTwo)).cpuinfo.len = 3 ∧
    (ReadAll parseUint (init true (some dumpTwo)) none [0, 1, 2]).map Reply.data =
      some "processor       : 0\ncore id\t\t: 0\n".toList ∧
    (ReadAll parseUint (init true (some dumpTwo)) (some []) [0, 1, 2]).map Reply.data =
      some "processor       : 0\ncore id\t\t: 0\n".toList := by
  decide

/-- C10, on the code: when the selection is empty the output follows the order in
which the map is ranged over; two orders of the same catalog and the same cpuset
content give different bytes. -/
theorem ReadAll_depends_on_order :
    RangeOrder (init true (some dumpTwo)).cpuinfo [0, 1, 2] ∧
    RangeOrder (init true (some dumpTwo)).cpuinfo [1, 0, 2] ∧
    (ReadAll parseUint (init true (some dumpTwo)) (some "1-0\n".toList) [0, 1, 2]).map
        Reply.data =
      some "processor\t: 0\ncore id\t\t: 0\n\nprocessor\t: 1\ncore id\t\t: 1\n\n".toList ∧
    (ReadAll parseUint (init true (some dumpTwo)) (some "1-0\n".toList) [1, 0, 2]).map
        Reply.data =
      some "\nprocessor\t: 1\ncore id\t\t: 1\nprocessor\t: 0\ncore id\t\t: 0\n\n".toList ∧
    ReadAll parseUint (init true (some dumpTwo)) (some "1-0\n".toList) [0, 1, 2] ≠
      ReadAll parseUint (init true (some dumpTwo)) (some "1-0\n".toList) [1, 0, 2] := by
  decide

/-! ## `getCpuSets` on arbitrary content -/

theorem pieceIds_length (P : ParseUint) (piece : Text) :
    (pieceIds P piece).length = pieceCount P piece := by
  unfold pieceIds pieceCount
  split <;> simp

theorem rangeLoop_cases (last : Nat) : ∀ (free i : Nat) (w : List Nat),
    rangeLoop last free i w =
      if last + 1 - i ≤ free then
        some ⟨w ++ List.range' i (last + 1 - i), free - (last + 1 - i)⟩
      else none := by
  intro free
  induction free with
  | zero =>
    intro i w
    by_cases hle : i ≤ last
    · have : ¬ last + 1 - i ≤ 0 := by omega
      simp [rangeLoop, hle, this]
    · have h0 : last + 1 - i = 0 := by omega
      simp [rangeLoop, hle, h0]
  | succ f ih =>
    intro i w
    by_cases hle : i ≤ last
    · have hk : last + 1 - i = (last + 1 - (i + 1)) + 1 := by omega
      rw [rangeLoop, if_pos hle, ih (i + 1) (w ++ [i])]
      by_cases hfit : last + 1 - (i + 1) ≤ f
      · have hfit2 : last + 1 - i ≤ f + 1 := by omega
        rw [if_pos hfit, if_pos hfit2, hk, List.range'_succ]
        simp
      · have hfit2 : ¬ last + 1 - i ≤ f + 1 := by omega
        rw [if_neg hfit, if_neg hfit2]
    · have h0 : last + 1 - i = 0 := by omega
      simp [rangeLoop, hle, h0]

theorem perToken_cases (P : ParseUint) (st : Work) (piece : Text) :
    perToken P st piece =
      if pieceCount P piece ≤ st.free then
        some ⟨st.written ++ pieceIds P piece, st.free - pieceCount P piece⟩
      else none := by
  obtain ⟨w, f⟩ := st
  unfold perToken pieceCount pieceIds
  split
  · cases f with
    | zero => simp [store]
    | succ f => simp [store]
  · exact rangeLoop_cases _ _ _ _
  · simp

theorem tokenLoop_cases (P : ParseUint) : ∀ (ps : List Text) (st : Work),
    tokenLoop P ps st =
      if (ps.map (pieceCount P)).sum ≤ st.free then
        some ⟨st.written ++ ps.flatMap (pieceIds P), st.free - (ps.map (pieceCount P)).sum⟩
      else none := by
  intro ps
  induction ps with
  | nil => intro st; simp [tokenLoop]
  | cons p ps ih =>
    intro st
    rw [tokenLoop, perToken_cases]
    by_cases h1 : pieceCount P p ≤ st.free
    · rw [if_pos h1]
      simp only
      rw [ih]
      simp only [List.map_cons, List.sum_cons, List.flatMap_cons]
      by_cases h2 : (ps.map (pieceCount P)).sum ≤ st.free - pieceCount P p
      · have h3 : pieceCount P p + (ps.map (pieceCount P)).sum ≤ st.free := by omega
        rw [if_pos h2, if_pos h3]
        simp [Nat.sub_sub]
      · have h3 : ¬ pieceCount P p + (ps.map (pieceCount P)).sum ≤ st.free := by omega
        rw [if_neg h2, if_neg h3]
    · have h3 : ¬ ((p :: ps).map (pieceCount P)).sum ≤ st.free := by
        simp only [List.map_cons, List.sum_cons]
        omega
      rw [if_neg h1, if_neg h3]

/-- The result of `getCpuSets` on any content: the sorted ids of the pieces when
their number is at most `len(cpuinfo)`, a run-time failure otherwise. -/
theorem getCpuSets_cases (P : ParseUint) (g : Globals) (file : Option Text) :
    getCpuSets P g file =
      if contributedCount P file ≤ g.cpuinfo.len then
        some (sortInts ((pieces file).flatMap (pieceIds P)))
      else none := by
  unfold getCpuSets contributedCount pieces
  simp only
  rw [tokenLoop_cases]
  by_cases h : ((split ',' (TrimSpace (file.getD []))).map (pieceCount P)).sum ≤ g.cpuinfo.len
  · rw [if_pos h, if_pos h]
    simp
  · rw [if_neg h, if_neg h]

theorem split_ne_nil (sep : Char) : ∀ s : Text, split sep s ≠ [] := by
  intro s
  induction s with
  | nil => simp [split]
  | cons c cs ih =>
    unfold split
    split
    · simp
    · split <;> simp

theorem pieceIds_eq_nil_iff (P : ParseUint) (piece : Text) :
    pieceIds P piece = [] ↔ Malformed P piece := by
  have hne := split_ne_nil '-' piece
  rcases h : split '-' piece with _ | ⟨x, _ | ⟨y, _ | ⟨z, rest⟩⟩⟩
  · exact absurd h hne
  · simp [pieceIds, Malformed, h]
  · simp only [pieceIds, Malformed, h, List.range'_eq_nil]
    omega
  · simp [pieceIds, Malformed, h]

theorem sortInts_eq_nil_iff (l : List Nat) : sortInts l = [] ↔ l = [] := by
  constructor
  · intro h
    have hp : (sortInts l).Perm l := List.perm_insertionSort _ _
    rw [h] at hp
    exact hp.symm.eq_nil
  · intro h
    subst h
    rfl

theorem getCpuSets_eq_nil_iff (P : ParseUint) (g : Globals) (file : Option Text) :
    getCpuSets P g file = some [] ↔ ∀ piece ∈ pieces file, Malformed P piece := by
  rw [getCpuSets_cases]
  constructor
  · intro h
    by_cases hc : contributedCount P file ≤ g.cpuinfo.len
    · rw [if_pos hc] at h
      have h1 : sortInts ((pieces file).flatMap (pieceIds P)) = [] := Option.some.inj h
      have h2 := (sortInts_eq_nil_iff _).mp h1
      intro piece hp
      exact (pieceIds_eq_nil_iff P piece).mp (List.flatMap_eq_nil_iff.mp h2 piece hp)
    · rw [if_neg hc] at h
      exact Option.noConfusion h
  · intro h
    have h2 : (pieces file).flatMap (pieceIds P) = [] :=
      List.flatMap_eq_nil_iff.mpr (fun piece hp => (pieceIds_eq_nil_iff P piece).mpr (h piece hp))
    have h0 : contributedCount P file = 0 := by
      unfold contributedCount
      apply List.sum_eq_zero
      intro n hn
      obtain ⟨piece, hp, rfl⟩ := List.mem_map.mp hn
      rw [← pieceIds_length, (pieceIds_eq_nil_iff P piece).mpr (h piece hp)]
      rfl
    rw [if_pos (by omega), h2]
    rfl

theorem ReadAll_data (P : ParseUint) (g : Globals) (file : Option Text) (order : List Nat)
    (hr : g.replacer = true) :
    (ReadAll P g file order).map Reply.data =
      (getCpuSets P g file).map
        (fun ids => (getCpuInfo { g with buffer := [] } order ids).1) := by
  have hsame : getCpuSets P { g with buffer := [] } file = getCpuSets P g file := rfl
  unfold ReadAll
  dsimp only
  split
  · rename_i h
    rw [hr] at h
    exact Bool.noConfusion h
  · rw [hsame]
    cases getCpuSets P g file <;> rfl

/-! ## The parser on arbitrary content: claims -/

/-- C16: for every catalog and every content of the cpuset file, `getCpuSets`
completes (no write out of the range of its working array) if and only if the number
of ids contributed by the pieces, duplicates counted, is at most the number of
catalog records; it fails with an index out of range exactly when that number is
larger. -/
theorem getCpuSets_capacity (P : ParseUint) (g : Globals) (file : Option Text) :
    ((getCpuSets P g file).isSome = true ↔ contributedCount P file ≤ g.cpuinfo.len) ∧
    (getCpuSets P g file = none ↔ g.cpuinfo.len < contributedCount P file) := by
  rw [getCpuSets_cases]
  by_cases hc : contributedCount P file ≤ g.cpuinfo.len
  · rw [if_pos hc]
    exact ⟨⟨fun _ => hc, fun _ => rfl⟩,
      ⟨fun h => Option.noConfusion h, fun h => absurd hc (by omega)⟩⟩
  · rw [if_neg hc]
    exact ⟨⟨fun h => Bool.noConfusion h, fun h => absurd h hc⟩,
      ⟨fun _ => by omega, fun _ => rfl⟩⟩

/-- C17: `getCpuSets` returns the empty sequence if and only if every piece of the
trimmed content is a token of more than two dash-separated parts or a two-part range
whose parsed begin is greater than its parsed end.  A one-part token, the empty one
included, stores exactly one id, the value `parseUint` returns, whether the parse
succeeded or not.  So, the pattern being compiled, `ReadAll` returns the dump of the
fallback branch when every piece is of that kind, and otherwise renders a non-empty
selection or fails. -/
theorem getCpuSets_empty_iff (P : ParseUint) (g : Globals) (file : Option Text)
    (order : List Nat) :
    (getCpuSets P g file = some [] ↔ ∀ piece ∈ pieces file, Malformed P piece) ∧
    (∀ (st : Work) (piece x : Text), split '-' piece = [x] →
      perToken P st piece = store (P.run x) st ∧ ¬ Malformed P piece) ∧
    (∀ st : Work, perToken P st [] = store (P.run []) st) ∧
    (g.replacer = true → (∀ piece ∈ pieces file, Malformed P piece) →
      (ReadAll P g file order).map Reply.data = some (dumpLoop g.cpuinfo order [])) ∧
    (g.replacer = true → ¬ (∀ piece ∈ pieces file, Malformed P piece) →
      (ReadAll P g file order).map Reply.data =
          (getCpuSets P g file).map (fun ids => renderLoop g.cpuinfo 0 ids []) ∧
        getCpuSets P g file ≠ some []) := by
  have hiff := getCpuSets_eq_nil_iff P g file
  have hdata := ReadAll_data P g file order
  refine ⟨hiff, ?_, ?_, ?_, ?_⟩
  · intro st piece x hx
    exact ⟨by simp [perToken, hx], by simp [Malformed, hx]⟩
  · intro st
    rfl
  · intro hr hall
    rw [hdata hr, hiff.mpr hall]
    rfl
  · intro hr hnot
    have hne : getCpuSets P g file ≠ some [] := fun h => hnot (hiff.mp h)
    refine ⟨?_, hne⟩
    rw [hdata hr]
    cases hget : getCpuSets P g file with
    | none => rfl
    | some ids =>
      have hids : ids ≠ [] := fun e => hne (by rw [hget, e])
      simp [getCpuInfo, hids]

/-- C17 at the content `1-0,2-3-4`: every piece contributes no id, the result is
the empty sequence and `ReadAll` returns the dump of the whole catalog; the one-part
piece `x` stores one id. -/
theorem getCpuSets_empty_iff_witness :
    ((∀ piece ∈ pieces (some contentNoId), Malformed parseUint piece) ∧
      globalsTwo.replacer = true ∧ split '-' ['x'] = [['x']]) ∧
    getCpuSets parseUint globalsTwo (some contentNoId) = some [] ∧
    (perToken parseUint ⟨[], 3⟩ ['x'] = store (parseUint.run ['x']) ⟨[], 3⟩ ∧
      ¬ Malformed parseUint ['x']) ∧
    (ReadAll parseUint globalsTwo (some contentNoId) [0, 1, 2]).map Reply.data =
      some (dumpLoop globalsTwo.cpuinfo [0, 1, 2] []) :=
  ⟨⟨by decide, by decide, by decide⟩,
    (getCpuSets_empty_iff parseUint globalsTwo (some contentNoId) [0, 1, 2]).1.mpr (by decide),
    (getCpuSets_empty_iff parseUint globalsTwo (some contentNoId) [0, 1, 2]).2.1 ⟨[], 3⟩ ['x']
      ['x'] (by decide),
    (getCpuSets_empty_iff parseUint globalsTwo (some contentNoId) [0, 1, 2]).2.2.2.1 (by decide)
      (by decide)⟩

/-! ## White space around the content -/

theorem dropWhile_append_space (w : Text) (hw : ∀ c ∈ w, isSpace c = true) : ∀ s : Text,
    (s ++ w).dropWhile isSpace = s.dropWhile isSpace ++ w ∨
      ((s ++ w).dropWhile isSpace = [] ∧ s.dropWhile isSpace = []) := by
  intro s
  induction s with
  | nil =>
    right
    have h : w.dropWhile isSpace = [] := by
      have := @List.dropWhile_append_of_pos Char isSpace w [] hw
      simpa using this
    exact ⟨by simpa using h, rfl⟩
  | cons a l ih =>
    by_cases ha : isSpace a = true
    · simpa [List.dropWhile_cons, ha] using ih
    · left
      simp [List.dropWhile_cons, ha]

theorem TrimSpace_space_append (w s : Text) (hw : ∀ c ∈ w, isSpace c = true) :
    TrimSpace (w ++ s) = TrimSpace s := by
  unfold TrimSpace
  rw [List.dropWhile_append_of_pos hw]

theorem TrimSpace_append_space (s w : Text) (hw : ∀ c ∈ w, isSpace c = true) :
    TrimSpace (s ++ w) = TrimSpace s := by
  unfold TrimSpace
  rcases dropWhile_append_space w hw s with h | ⟨h1, h2⟩
  · rw [h, List.reverse_append,
      List.dropWhile_append_of_pos (fun c hc => hw c (List.mem_reverse.mp hc))]
  · rw [h1, h2]

theorem TrimSpace_surround (w1 c w2 : Text) (h1 : ∀ ch ∈ w1, isSpace ch = true)
    (h2 : ∀ ch ∈ w2, isSpace ch = true) : TrimSpace (w1 ++ c ++ w2) = TrimSpace c := by
  rw [TrimSpace_append_space _ _ h2, TrimSpace_space_append _ _ h1]

theorem TrimSpace_idem (c : Text) : TrimSpace (TrimSpace c) = TrimSpace c := by
  have hl : ∀ ch ∈ c.takeWhile isSpace, isSpace ch = true :=
    fun ch hch => List.mem_takeWhile_imp hch
  have hr : ∀ ch ∈ (((c.dropWhile isSpace).reverse).takeWhile isSpace).reverse,
      isSpace ch = true :=
    fun ch hch => List.mem_takeWhile_imp (List.mem_reverse.mp hch)
  have e1 : c.dropWhile isSpace =
      TrimSpace c ++ (((c.dropWhile isSpace).reverse).takeWhile isSpace).reverse := by
    unfold TrimSpace
    rw [← List.reverse_append, List.takeWhile_append_dropWhile, List.reverse_reverse]
  have e2 : c = c.takeWhile isSpace ++ TrimSpace c ++
      (((c.dropWhile isSpace).reverse).takeWhile isSpace).reverse := by
    rw [List.append_assoc, ← e1, List.takeWhile_append_dropWhile]
  have := TrimSpace_surround _ (TrimSpace c) _ hl hr
  rw [← e2] at this
  exact this.symm

/-- C18: white space around the content of the cpuset file is ignored: for every
content `c` and all texts `w1`, `w2` of white space, `getCpuSets` on `w1 ++ c ++ w2`
returns what it returns on the trimmed `c`, and on `c` itself. -/
theorem getCpuSets_ignores_surrounding_space (P : ParseUint) (g : Globals) (c w1 w2 : Text)
    (h1 : ∀ ch ∈ w1, isSpace ch = true) (h2 : ∀ ch ∈ w2, isSpace ch = true) :
    getCpuSets P g (some (w1 ++ c ++ w2)) = getCpuSets P g (some (TrimSpace c)) ∧
    getCpuSets P g (some (w1 ++ c ++ w2)) = getCpuSets P g (some c) := by
  unfold getCpuSets
  simp only [Option.getD_some]
  rw [TrimSpace_surround w1 c w2 h1 h2, TrimSpace_idem]
  exact ⟨rfl, rfl⟩

/-- C18 at the content `0-2` between a tab and the line feed that ends a real
`cpuset.cpus` file. -/
theorem getCpuSets_ignores_surrounding_space_witness :
    ((∀ ch ∈ "\t ".toList, isSpace ch = true) ∧ (∀ ch ∈ " \n".toList, isSpace ch = true)) ∧
    (getCpuSets parseUint globalsFour (some ("\t ".toList ++ "0-2".toList ++ " \n".toList)) =
        getCpuSets parseUint globalsFour (some (TrimSpace "0-2".toList)) ∧
      getCpuSets parseUint globalsFour (some ("\t ".toList ++ "0-2".toList ++ " \n".toList)) =
        getCpuSets parseUint globalsFour (some "0-2".toList)) ∧
    getCpuSets parseUint globalsFour (some "\t 0-2 \n".toList) = some [0, 1, 2] :=
  ⟨⟨by decide, by decide⟩,
    getCpuSets_ignores_surrounding_space parseUint globalsFour "0-2".toList "\t ".toList
      " \n".toList (by decide) (by decide),
    by decide⟩

/-! ## The catalog built at startup, for every dump -/

theorem Catalog.set_fresh (m : Catalog) (c : Nat) (v : Text) (h : m.keys = List.range c) :
    m.set c v = m ++ [(c, v)] := by
  unfold Catalog.set
  congr 1
  rw [List.filter_eq_self]
  intro e he
  have hk : e.1 ∈ m.keys := List.mem_map_of_mem Prod.fst he
  rw [h, List.mem_range] at hk
  simp only [ne_eq, decide_not, Bool.not_eq_true', decide_eq_false_iff_not]
  omega

theorem scan_invariant : ∀ (lines : List Text) (st : Scan),
    st.cpuinfo.keys = List.range st.count →
    (lines.foldl scanLine st).cpuinfo.keys = List.range (lines.foldl scanLine st).count ∧
    (lines.foldl scanLine st).count =
      st.count + (lines.filter (fun line => decide (line.length = 0))).length ∧
    ((lines.foldl scanLine st).cpuinfo.map Prod.snd).flatten ++
        (lines.foldl scanLine st).buffer =
      (st.cpuinfo.map Prod.snd).flatten ++ st.buffer ++
        lines.flatMap (fun line => line ++ ['\n']) := by
  intro lines
  induction lines with
  | nil => intro st h; simp [h]
  | cons l ls ih =>
    intro st h
    rw [List.foldl_cons]
    by_cases hl : l.length = 0
    · have hnil : l = [] := List.length_eq_zero.mp hl
      subst hnil
      have hk : (scanLine st []).cpuinfo.keys = List.range (scanLine st []).count := by
        rw [scanLine_nil]
        simp only
        rw [Catalog.set_fresh _ _ _ h, List.range_succ]
        simp [Catalog.keys, ← h]
      obtain ⟨i1, i2, i3⟩ := ih (scanLine st []) hk
      refine ⟨i1, ?_, ?_⟩
      · rw [i2, scanLine_nil]
        simp only [List.length_nil, decide_True, List.filter_cons_of_pos, List.length_cons]
        omega
      · rw [i3, scanLine_nil]
        simp only
        rw [Catalog.set_fresh _ _ _ h]
        simp
    · have hs : scanLine st l = ⟨st.cpuinfo, st.count, st.buffer ++ l ++ ['\n']⟩ := by
        simp [scanLine, hl]
      obtain ⟨i1, i2, i3⟩ := ih (scanLine st l) (by rw [hs]; exact h)
      have hne : l ≠ [] := fun e => hl (by rw [e]; rfl)
      refine ⟨i1, ?_, ?_⟩
      · rw [i2, hs]
        simp [hne]
      · rw [i3, hs]
        simp

theorem flatMap_split_newline : ∀ raw : Text,
    (split '\n' raw).flatMap (fun line => line ++ ['\n']) = raw ++ ['\n'] := by
  intro raw
  induction raw with
  | nil => rfl
  | cons c cs ih =>
    by_cases hc : c = '\n'
    · subst hc
      have e : split '\n' ('\n' :: cs) = [] :: split '\n' cs := by simp [split]
      rw [e, List.flatMap_cons, ih]
      rfl
    · rcases hsp : split '\n' cs with _ | ⟨w, ws⟩
      · exact absurd hsp (split_ne_nil _ _)
      · have e : split '\n' (c :: cs) = (c :: w) :: ws := by simp [split, hc, hsp]
        rw [hsp] at ih
        rw [e]
        simp only [List.flatMap_cons, List.cons_append] at ih ⊢
        rw [ih]

theorem split_append_newline (sep : Char) : ∀ r : Text,
    split sep (r ++ [sep]) = split sep r ++ [[]] := by
  intro r
  induction r with
  | nil => simp [split]
  | cons c cs ih =>
    by_cases hc : c = sep
    · subst hc
      simp [split, ih]
    · rcases hsp : split sep cs with _ | ⟨w, ws⟩
      · exact absurd hsp (split_ne_nil _ _)
      · rw [hsp] at ih
        simp [split, hc, hsp, ih]

theorem Catalog.map_keys_self : ∀ m : Catalog, (Catalog.keys m).Nodup →
    (Catalog.keys m).map (fun k => (k, (Catalog.get? m k).getD [])) = m := by
  intro m
  induction m with
  | nil => intro _; rfl
  | cons e m ih =>
    intro hnd
    obtain ⟨k, v⟩ := e
    have hnd2 : (k :: Catalog.keys m).Nodup := hnd
    obtain ⟨hk, hm⟩ := List.nodup_cons.mp hnd2
    have htail : (Catalog.keys m).map (fun j => (j, (Catalog.get? ((k, v) :: m) j).getD [])) =
        (Catalog.keys m).map (fun j => (j, (Catalog.get? m j).getD [])) := by
      apply List.map_congr_left
      intro j hj
      have hjk : (j == k) = false := by
        have : j ≠ k := fun e => hk (e ▸ hj)
        simpa using this
      simp [Catalog.get?, List.lookup_cons, hjk]
    show (k, (Catalog.get? ((k, v) :: m) k).getD []) ::
        (Catalog.keys m).map (fun j => (j, (Catalog.get? ((k, v) :: m) j).getD [])) =
      (k, v) :: m
    rw [htail, ih hm]
    simp [Catalog.get?]

theorem Catalog.ascending_of_range (m : Catalog) (n : Nat) (h : m.keys = List.range n) :
    m.ascending = (m.map Prod.snd).flatten := by
  have hnd : m.keys.Nodup := by rw [h]; exact List.nodup_range n
  have hs : sortInts m.keys = m.keys := by
    rw [h]
    exact List.Sorted.insertionSort_eq (List.sorted_le_range n)
  unfold Catalog.ascending
  rw [hs, List.flatMap_def]
  congr 1
  have := congrArg (List.map Prod.snd) (Catalog.map_keys_self m hnd)
  simpa [List.map_map, Function.comp_def] using this

theorem scanDump_facts (raw : Text) :
    (scanDump raw).cpuinfo.keys = List.range (emptyLines raw) ∧
    (scanDump raw).count = emptyLines raw ∧
    ((scanDump raw).cpuinfo.map Prod.snd).flatten ++ (scanDump raw).buffer = raw ++ ['\n'] := by
  obtain ⟨i1, i2, i3⟩ := scan_invariant (split '\n' raw) ⟨[], 0, []⟩ rfl
  have hc : (scanDump raw).count = emptyLines raw := by
    unfold scanDump emptyLines
    rw [i2]
    simp
  refine ⟨?_, hc, ?_⟩
  · rw [← hc]
    exact i1
  · unfold scanDump
    rw [i3, flatMap_split_newline]
    simp

theorem Catalog.get?_eq_none_iff (m : Catalog) (id : Nat) :
    m.get? id = none ↔ id ∉ m.keys := by
  simp only [Catalog.get?, Catalog.keys, List.lookup_eq_none_iff, List.mem_map, not_exists,
    not_and, bne_iff_ne, ne_eq]
  constructor
  · intro h e he hid
    exact h e he hid.symm
  · intro h e he hid
    exact h e he hid.symm

theorem scanDump_buffer_of_newline (r : Text) : (scanDump (r ++ ['\n'])).buffer = ['\n'] := by
  unfold scanDump
  rw [split_append_newline, List.foldl_append, List.foldl_cons, List.foldl_nil, scanLine_nil]

/-! ## The startup routine on every dump: claims -/

/-- C15: for every dump `raw` that is read, the records of the catalog built at
startup, concatenated in ascending order of their ids and followed by what is left
in the scratch buffer, are `raw` followed by one line feed; when `raw` ends with a
line feed the records alone concatenate to `raw`. -/
theorem init_round_trip (raw : Text) :
    (init true (some raw)).cpuinfo.ascending ++ (init true (some raw)).buffer =
      raw ++ ['\n'] ∧
    ∀ r : Text, raw = r ++ ['\n'] → (init true (some raw)).cpuinfo.ascending = raw := by
  obtain ⟨f1, _, f3⟩ := scanDump_facts raw
  have hasc : (init true (some raw)).cpuinfo.ascending =
      ((scanDump raw).cpuinfo.map Prod.snd).flatten :=
    Catalog.ascending_of_range (scanDump raw).cpuinfo _ f1
  have hbuf : (init true (some raw)).buffer = (scanDump raw).buffer := rfl
  have h1 : (init true (some raw)).cpuinfo.ascending ++ (init true (some raw)).buffer =
      raw ++ ['\n'] := by
    rw [hasc, hbuf, f3]
  refine ⟨h1, ?_⟩
  intro r hr
  have hb : (init true (some raw)).buffer = ['\n'] := by
    rw [hbuf, hr]
    exact scanDump_buffer_of_newline r
  rw [hb] at h1
  exact List.append_cancel_right h1

/-- C15 at the dump of two processors, which ends with a line feed. -/
theorem init_round_trip_witness :
    dumpTwo = "processor\t: 0\ncore id\t\t: 0\n\nprocessor\t: 1\ncore id\t\t: 1\n".toList ++
      ['\n'] ∧
    (init true (some dumpTwo)).cpuinfo.ascending = dumpTwo :=
  ⟨by decide,
    (init_round_trip dumpTwo).2
      "processor\t: 0\ncore id\t\t: 0\n\nprocessor\t: 1\ncore id\t\t: 1\n".toList (by decide)⟩

/-- C19: for every dump that is read, the ids of the catalog built at startup are
exactly `0, 1, ..., n-1`, each once, where `n` is the number of empty lines obtained
when the dump is split on line feeds; the catalog has `n` records and an id is
absent from it if and only if it is at least `n`. -/
theorem init_keys (raw : Text) :
    (init true (some raw)).cpuinfo.keys = List.range (emptyLines raw) ∧
    (init true (some raw)).cpuinfo.len = emptyLines raw ∧
    ∀ id : Nat, (init true (some raw)).cpuinfo.get? id = none ↔ emptyLines raw ≤ id := by
  obtain ⟨f1, _, _⟩ := scanDump_facts raw
  have hk : (init true (some raw)).cpuinfo.keys = List.range (emptyLines raw) := f1
  refine ⟨hk, ?_, ?_⟩
  · have := congrArg List.length hk
    simpa [Catalog.keys, Catalog.len] using this
  · intro id
    rw [Catalog.get?_eq_none_iff, hk, List.mem_range]
    omega

/-! ## The fallback branch, the startup failure, Attr and the shared buffer -/

theorem dumpLoop_eq (m : Catalog) : ∀ (order : List Nat) (buf : Text),
    dumpLoop m order buf = buf ++ (order.map (fun k => (m.get? k).getD [])).flatten := by
  intro order
  induction order with
  | nil => intro buf; simp [dumpLoop]
  | cons k ks ih =>
    intro buf
    cases h : m.get? k with
    | some info => simp [dumpLoop, h, ih]
    | none => simp [dumpLoop, h, ih]

theorem getCpuInfo_nil (g : Globals) (order : List Nat) :
    (getCpuInfo g order []).1 = (order.map (fun k => (g.cpuinfo.get? k).getD [])).flatten := by
  simp [getCpuInfo, dumpLoop_eq]

theorem entries_of_order (m : Catalog) (order : List Nat) (hwf : m.WF)
    (ho : RangeOrder m order) :
    (order.map (fun k => (k, (m.get? k).getD []))).Perm m := by
  have h := List.Perm.map (fun k => (k, (m.get? k).getD [])) ho
  rw [Catalog.map_keys_self m hwf] at h
  exact h

theorem getCpuInfo_nil_length (g : Globals) (order : List Nat) (hwf : g.cpuinfo.WF)
    (ho : RangeOrder g.cpuinfo order) :
    ((getCpuInfo g order []).1).length = (g.cpuinfo.map (fun e => e.2.length)).sum := by
  have hp := entries_of_order g.cpuinfo order hwf ho
  have hs := (List.Perm.map (fun e : Nat × Text => e.2.length) hp).sum_eq
  rw [getCpuInfo_nil, List.length_flatten, ← hs]
  simp [List.map_map, Function.comp_def]

/-- C11: for the empty selection `getCpuInfo` writes every catalog record exactly
once and unmodified: whatever order the map is ranged over, the output is the
concatenation of the record texts of a rearrangement of the catalog, listed by id in
that order, and its length is the sum of the lengths of the records. -/
theorem getCpuInfo_fallback (g : Globals) (order : List Nat) (hwf : g.cpuinfo.WF)
    (ho : RangeOrder g.cpuinfo order) :
    (∃ es : List (Nat × Text), es.Perm g.cpuinfo ∧ es.map Prod.fst = order ∧
      (getCpuInfo g order []).1 = (es.map Prod.snd).flatten) ∧
    ((getCpuInfo g order []).1).length = (g.cpuinfo.map (fun e => e.2.length)).sum := by
  refine ⟨⟨order.map (fun k => (k, (g.cpuinfo.get? k).getD [])),
    entries_of_order g.cpuinfo order hwf ho, ?_, ?_⟩, getCpuInfo_nil_length g order hwf ho⟩
  · simp [List.map_map, Function.comp_def]
  · rw [getCpuInfo_nil]
    simp [List.map_map, Function.comp_def]

/-- C11 at the catalog of host ids 0..3 ranged over in the order 2, 0, 3, 1. -/
theorem getCpuInfo_fallback_witness :
    (globalsFour.cpuinfo.WF ∧ RangeOrder globalsFour.cpuinfo [2, 0, 3, 1]) ∧
    ((∃ es : List (Nat × Text), es.Perm globalsFour.cpuinfo ∧ es.map Prod.fst = [2, 0, 3, 1] ∧
        (getCpuInfo globalsFour [2, 0, 3, 1] []).1 = (es.map Prod.snd).flatten) ∧
      ((getCpuInfo globalsFour [2, 0, 3, 1] []).1).length =
        (globalsFour.cpuinfo.map (fun e => e.2.length)).sum) ∧
    (getCpuInfo globalsFour [2, 0, 3, 1] []).1 =
      ("processor\t: 2\ncore id\t\t: 2\nprocessor\t: 0\ncore id\t\t: 0\n".toList ++
        "processor\t: 3\ncore id\t\t: 3\nprocessor\t: 1\ncore id\t\t: 1\n".toList) :=
  ⟨⟨by unfold Catalog.WF; decide, by decide⟩,
    getCpuInfo_fallback globalsFour [2, 0, 3, 1] (by unfold Catalog.WF; decide) (by decide),
    by decide⟩

/-- C12: when the startup read of the host dump failed, the pattern is unset and the
catalog is empty, and every `ReadAll` returns the empty document with a nil error,
whatever the parser, the cpuset file (readable or not) and the iteration order are:
the result does not depend on the file. -/
theorem ReadAll_after_failed_startup (P : ParseUint) (linux : Bool) (file : Option Text)
    (order : List Nat) :
    (init linux none).replacer = false ∧ (init linux none).cpuinfo = [] ∧
    ReadAll P (init linux none) file order = some ⟨[], none, Globals.zero⟩ := by
  cases linux <;> exact ⟨rfl, rfl, rfl⟩

/-- C13, on the code: `Attr` sets the inode to `INODE_CPUINFO`, the mode to 0444 and
the size to the length of what `ReadAll` returns, with a nil error, whenever
`ReadAll` returns; but it fails with `ReadAll`, so it does not succeed for every
content: over the catalog of three records the content `0-3` makes it stop with an
index out of range. -/
theorem Attr_fails_with_ReadAll (P : ParseUint) (INODE_CPUINFO : Nat) (g : Globals)
    (file : Option Text) (order : List Nat) (a : FuseAttr) :
    (Attr P INODE_CPUINFO g file order a).map
        (fun t => (t.1.Inode, t.1.Mode, t.1.Size, t.2.1)) =
      (ReadAll P g file order).map
        (fun r => (INODE_CPUINFO, 0o444, r.data.length, (none : Option Text))) ∧
    (Attr P INODE_CPUINFO g file order a = none ↔ ReadAll P g file order = none) ∧
    ReadAll parseUint globalsTwo (some "0-3\n".toList) [0, 1, 2] = none ∧
    Attr parseUint INODE_CPUINFO globalsTwo (some "0-3\n".toList) [0, 1, 2] a = none := by
  have hfail : ReadAll parseUint globalsTwo (some "0-3\n".toList) [0, 1, 2] = none := by decide
  refine ⟨?_, ?_, hfail, ?_⟩
  · unfold Attr
    cases ReadAll P g file order <;> rfl
  · unfold Attr
    cases ReadAll P g file order <;> simp
  · unfold Attr
    rw [hfail]

/-- C14, on the code: the document is assembled in the package-level `buffer`, not
in a fresh one: after every `ReadAll` that buffer holds the bytes just returned, and
the next call resets and refills it.  With the catalog of host ids 0..3, a read of
the content `1` leaves its bytes in the buffer and a following read of the content
`3` replaces them with bytes of the same length. -/
theorem ReadAll_shares_buffer (P : ParseUint) (g : Globals) (file : Option Text)
    (order : List Nat) :
    (ReadAll P g file order).map (fun r => r.globals.buffer) =
      (ReadAll P g file order).map Reply.data ∧
    ((ReadAll parseUint globalsFour (some "1\n".toList) [0, 1, 2, 3]).bind (fun r1 =>
        (ReadAll parseUint r1.globals (some "3\n".toList) [0, 1, 2, 3]).map (fun r2 =>
          (r1.data, r1.globals.buffer, r2.data, r2.globals.buffer)))) =
      some ("processor       : 0\ncore id\t\t: 1\n".toList,
        "processor       : 0\ncore id\t\t: 1\n".toList,
        "processor       : 0\ncore id\t\t: 3\n".toList,
        "processor       : 0\ncore id\t\t: 3\n".toList) := by
  refine ⟨?_, by decide⟩
  unfold ReadAll
  dsimp only
  split
  · rfl
  · cases getCpuSets P { g with buffer := [] } file <;> rfl

/-! ## The rewrite of a record with a one-digit ordinal -/

theorem replaceFrom_no_p (repl : Text) : ∀ (pre x : Text), 'p' ∉ pre →
    replaceFrom repl 0 (pre ++ x) = pre ++ replaceFrom repl 0 x := by
  intro pre
  induction pre with
  | nil => intro x _; rfl
  | cons c cs ih =>
    intro x h
    have hc : 'p' ≠ c := fun e => h (e ▸ List.mem_cons_self _ _)
    have hm : matchAt (c :: (cs ++ x)) = none := by
      have hl : "processor".toList = 'p' :: "rocessor".toList := rfl
      simp [matchAt, hl, dropLiteral, hc]
    rw [List.cons_append, replaceFrom, hm]
    simp only
    rw [ih x (fun hcs => h (List.mem_cons_of_mem _ hcs))]
    rfl

theorem replaceFrom_no_match (repl : Text) : ∀ rest : Text,
    (∀ t ∈ rest.tails, matchAt t = none) → replaceFrom repl 0 rest = rest := by
  intro rest
  induction rest with
  | nil => intro _; rfl
  | cons c cs ih =>
    intro h
    have hm : matchAt (c :: cs) = none := h _ (by simp)
    rw [replaceFrom, hm]
    simp only
    rw [ih (fun t ht => h t (by simp [ht]))]

theorem OneDigitBlock.rewrite (b : OneDigitBlock) (h : b.OK) (j : Nat) :
    ReplaceAllString b.text (Sprintf j) = b.withOrdinal j := by
  obtain ⟨hp, h1, h1s, h2, h2s, hd, _, hrest⟩ := h
  have hmid := ReplaceAllString_ordinal b.ws1 b.ws2 b.d b.rest (Sprintf j) h1 h1s h2 h2s hd
  unfold ReplaceAllString at hmid ⊢
  unfold OneDigitBlock.text OneDigitBlock.withOrdinal
  rw [replaceFrom_no_p _ _ _ hp, hmid, replaceFrom_no_match _ _ hrest]

theorem lookup_range_map (f : Nat → Text) (id : Nat) : ∀ n : Nat,
    List.lookup id ((List.range n).map (fun k => (k, f k))) =
      if id < n then some (f id) else none := by
  intro n
  induction n with
  | zero => simp
  | succ n ih =>
    rw [List.range_succ, List.map_append, List.lookup_append, ih]
    by_cases h1 : id < n
    · have h2 : id < n + 1 := by omega
      simp [h1, h2]
    · by_cases h3 : id = n
      · subst h3
        simp
      · have h2 : ¬ id < n + 1 := by omega
        have hb : (id == n) = false := by simpa using h3
        simp [h1, h2, List.lookup_cons, hb]

theorem globalsThirteen_ids (id : Nat) :
    (globalsThirteen.cpuinfo.get? id).isSome = true ↔ id < 13 := by
  unfold globalsThirteen Catalog.get?
  simp only
  rw [lookup_range_map]
  by_cases h : id < 13 <;> simp [h]

theorem globalsFour_blocks (id : Nat) (h : id < 4) :
    globalsFour.cpuinfo.get? id = some (hostBlock id).text ∧ (hostBlock id).OK := by
  interval_cases id <;> decide

/-! ## The renderer: claims on `getCpuInfo` -/

/-- C2, on the code: the records are written in the order of the selection, but the
ordinal field of a record whose host id has two digits is not rewritten to the
position: over the catalog of host ids 0..12 the selection `[12]` renders the
ordinal `02` instead of `0`, and the selection `[3,10]` renders the ordinals `0` and
`10` instead of `0` and `1` (the rewrite replaces the first digit alone).  With host
ids of one digit, as for the selection `[1,3]`, the ordinals are the positions. -/
theorem getCpuInfo_two_digit_host_id :
    (getCpuInfo globalsThirteen [] [12]).1 =
      "processor       : 02\ncore id\t\t: 12\n".toList ∧
    (getCpuInfo globalsThirteen [] [3, 10]).1 =
      "processor       : 0\ncore id\t\t: 3\nprocessor       : 10\ncore id\t\t: 10\n".toList ∧
    (getCpuInfo globalsThirteen [] [1, 3]).1 =
      "processor       : 0\ncore id\t\t: 1\nprocessor       : 1\ncore id\t\t: 3\n".toList := by
  decide

/-- C3, as stated, fails twice.  Over the catalog of host ids 0..3 the selection
`[99]` renders to nothing, while the same selection with the absent id removed is
empty and renders the whole catalog.  Over the catalog of host ids 0..12 the
ascending selection `[3,10]`, both ids present, renders the ordinals `0` and `10`,
not `0` and `1`. -/
theorem getCpuInfo_all_absent :
    ((∀ id, (globalsFour.cpuinfo.get? id).isSome = true ↔ id < 4) ∧
      List.Sorted (· ≤ ·) ([99] : List Nat) ∧
      (getCpuInfo globalsFour [0, 1, 2, 3] [99]).1 = [] ∧
      ([99] : List Nat).filter (fun id => decide (id < 4)) = [] ∧
      (getCpuInfo globalsFour [0, 1, 2, 3]
          (([99] : List Nat).filter (fun id => decide (id < 4)))).1 ≠
        (getCpuInfo globalsFour [0, 1, 2, 3] [99]).1) ∧
    ((∀ id, (globalsThirteen.cpuinfo.get? id).isSome = true ↔ id < 13) ∧
      List.Sorted (· ≤ ·) ([3, 10] : List Nat) ∧
      (getCpuInfo globalsThirteen (List.range 13) [3, 10]).1 =
        "processor       : 0\ncore id\t\t: 3\nprocessor       : 10\ncore id\t\t: 10\n".toList ∧
      (getCpuInfo globalsThirteen (List.range 13) [3, 10]).1 ≠
        "processor       : 0\ncore id\t\t: 3\nprocessor       : 1\ncore id\t\t: 10\n".toList) :=
  ⟨⟨globalsFour_ids, by decide, by decide, by decide, by decide⟩,
    ⟨globalsThirteen_ids, by decide, by decide, by decide⟩⟩

/-- C3, amended: over a catalog whose ids are `0..n-1` and whose records each carry
an ordinal of one digit, and for a non-empty ascending selection, the absent ids are
omitted and the output is the records of the present ids in order, the record at
position `j` of the output having its ordinal line read the label left-aligned in 16
columns, a colon, a space and the decimal of `j`, so that the ordinals are exactly
`0, 1, ..., k-1`; and when at least one selected id is present, rendering the
selection equals rendering it with the absent ids removed. -/
theorem getCpuInfo_absent_omitted (g : Globals) (order s : List Nat) (n : Nat)
    (blk : Nat → OneDigitBlock)
    (hcat : ∀ id, (g.cpuinfo.get? id).isSome = true ↔ id < n)
    (hblk : ∀ id, id < n → g.cpuinfo.get? id = some (blk id).text ∧ (blk id).OK)
    (hs : s.Sorted (· ≤ ·)) (hne : s ≠ []) :
    (getCpuInfo g order s).1 =
      (((s.filter (fun id => decide (id < n))).enum.map
        (fun p => (blk p.2).withOrdinal p.1)).flatten) ∧
    (s.filter (fun id => decide (id < n)) ≠ [] →
      getCpuInfo g order s = getCpuInfo g order (s.filter (fun id => decide (id < n)))) := by
  obtain ⟨rest, e, hrest⟩ := sorted_filter_lt n s hs
  have habs : ∀ a ∈ rest, g.cpuinfo.get? a = none := by
    intro a ha
    have h1 := hrest a ha
    cases hget : g.cpuinfo.get? a with
    | none => rfl
    | some v =>
      have := (hcat a).mp (by simp [hget])
      omega
  have hemit : (getCpuInfo g order s).1 =
      (((s.filter (fun id => decide (id < n))).enum.map
        (fun p => emitted g.cpuinfo p.1 p.2)).flatten) := by
    rw [getCpuInfo_fst_of_ne_nil g order s hne]
    generalize s.filter (fun id => decide (id < n)) = present at e
    subst e
    simp only [List.enum, List.enumFrom_append, List.map_append, List.flatten_append,
      flatten_emitted_absent g.cpuinfo rest _ habs, List.append_nil]
  have hmap : (s.filter (fun id => decide (id < n))).enum.map
        (fun p => emitted g.cpuinfo p.1 p.2) =
      (s.filter (fun id => decide (id < n))).enum.map
        (fun p => (blk p.2).withOrdinal p.1) := by
    apply List.map_congr_left
    intro p hp
    have hmem : p.2 ∈ s.filter (fun id => decide (id < n)) := List.snd_mem_of_mem_enumFrom hp
    have hlt : p.2 < n := by simpa using (List.mem_filter.mp hmem).2
    obtain ⟨hget, hok⟩ := hblk p.2 hlt
    simp only [emitted, hget]
    exact OneDigitBlock.rewrite (blk p.2) hok p.1
  refine ⟨by rw [hemit, hmap], ?_⟩
  intro hpres
  apply getCpuInfo_eq_of_fst
  rw [hemit, getCpuInfo_fst_of_ne_nil g order _ hpres]

/-- C3, amended, at the catalog of host ids 0..3 and the selection `[1,99]`: only the
block of host id 1 is emitted, with ordinal 0. -/
theorem getCpuInfo_absent_omitted_witness :
    ((∀ id, (globalsFour.cpuinfo.get? id).isSome = true ↔ id < 4) ∧
      (∀ id, id < 4 →
        globalsFour.cpuinfo.get? id = some (hostBlock id).text ∧ (hostBlock id).OK) ∧
      List.Sorted (· ≤ ·) ([1, 99] : List Nat) ∧ ([1, 99] : List Nat) ≠ []) ∧
    ((getCpuInfo globalsFour [0, 1, 2, 3] [1, 99]).1 =
        (((([1, 99] : List Nat).filter (fun id => decide (id < 4))).enum.map
          (fun p => (hostBlock p.2).withOrdinal p.1)).flatten) ∧
      ((([1, 99] : List Nat).filter (fun id => decide (id < 4))) ≠ [] →
        getCpuInfo globalsFour [0, 1, 2, 3] [1, 99] =
          getCpuInfo globalsFour [0, 1, 2, 3]
            (([1, 99] : List Nat).filter (fun id => decide (id < 4))))) ∧
    (getCpuInfo globalsFour [0, 1, 2, 3] [1, 99]).1 =
      "processor       : 0\ncore id\t\t: 1\n".toList :=
  ⟨⟨globalsFour_ids, globalsFour_blocks, by decide, by decide⟩,
    getCpuInfo_absent_omitted globalsFour [0, 1, 2, 3] [1, 99] 4 hostBlock globalsFour_ids
      globalsFour_blocks (by decide) (by decide),
    by decide⟩

/-! ## The startup routine on a dump of blocks: claims -/

theorem filter_empty_dumpLines : ∀ bs : List Block, (∀ b ∈ bs, BlockOK b) →
    ((dumpLines bs).filter (fun line => decide (line.length = 0))).length = bs.length + 1 := by
  intro bs
  induction bs with
  | nil => intro _; rfl
  | cons b bs ih =>
    intro h
    have hb := h b (List.mem_cons_self _ _)
    have e : dumpLines (b :: bs) = b ++ ([] :: dumpLines bs) := by simp [dumpLines]
    have hnone : b.filter (fun line => decide (line.length = 0)) = [] := by
      rw [List.filter_eq_nil_iff]
      intro l hl
      have hne := (hb.2 l hl).1
      simpa using hne
    rw [e, List.filter_append, hnone, List.nil_append]
    simp only [List.length_nil, decide_True, List.filter_cons_of_pos, List.length_cons]
    rw [ih (fun x hx => h x (List.mem_cons_of_mem _ hx))]

theorem scan_dumpLines_last : ∀ (bs : List Block) (st : Scan), (∀ b ∈ bs, BlockOK b) →
    ((dumpLines bs).foldl scanLine st).cpuinfo.get? (st.count + bs.length) =
      some (if bs.length = 0 then st.buffer else ['\n']) := by
  intro bs
  induction bs with
  | nil =>
    intro st _
    simp [dumpLines, scanLine_nil, Catalog.get?_set]
  | cons b bs ih =>
    intro st h
    have hb := h b (List.mem_cons_self _ _)
    have hfold : (dumpLines (b :: bs)).foldl scanLine st =
        (dumpLines bs).foldl scanLine
          ⟨st.cpuinfo.set st.count (st.buffer ++ blockLines b), st.count + 1, ['\n']⟩ := by
      have e : dumpLines (b :: bs) = b ++ ([] :: dumpLines bs) := by simp [dumpLines]
      rw [e, List.foldl_append, foldl_scanLine_lines b st (fun l hl => (hb.2 l hl).1),
        List.foldl_cons, scanLine_nil]
    have := ih ⟨st.cpuinfo.set st.count (st.buffer ++ blockLines b), st.count + 1, ['\n']⟩
      (fun x hx => h x (List.mem_cons_of_mem _ hx))
    simp only at this
    rw [hfold, List.length_cons, show st.count + (bs.length + 1) = st.count + 1 + bs.length by omega,
      this]
    simp

/-- C9, as stated, fails: the dump of two blocks yields three records, not two;
the record of key 1 starts with the line feed of the blank line that closed block 0
and is not the text of block 1, and the record of key 2 is a lone line feed. -/
theorem init_two_blocks :
    dumpText blocksTwo = dumpTwo ∧ (∀ b ∈ blocksTwo, BlockOK b) ∧ blocksTwo.length = 2 ∧
    (init true (some dumpTwo)).cpuinfo.len = 3 ∧
    (init true (some dumpTwo)).cpuinfo.get? 1 =
      some "\nprocessor\t: 1\ncore id\t\t: 1\n".toList ∧
    (init true (some dumpTwo)).cpuinfo.get? 1 ≠
      some (blockText ["processor\t: 1".toList, "core id\t\t: 1".toList]) ∧
    (init true (some dumpTwo)).cpuinfo.get? 1 ≠
      some (blockLines ["processor\t: 1".toList, "core id\t\t: 1".toList]) ∧
    (init true (some dumpTwo)).cpuinfo.get? 2 = some ['\n'] := by
  decide

/-- C9, amended: for a dump made of `N` blocks, each one or more non-empty lines
terminated by a blank line, the catalog built at startup holds exactly `N + 1`
records, keyed `0..N` in dump order: under a key `i < N` the `i`-th block, as its
lines for `i = 0` and as a line feed (the blank line that closed the block before)
followed by its lines for `i > 0`; under the key `N` a lone line feed (the empty
text when `N = 0`). -/
theorem init_catalog_of_blocks (bs : List Block) (hok : ∀ b ∈ bs, BlockOK b) :
    (init true (some (dumpText bs))).cpuinfo.keys = List.range (bs.length + 1) ∧
    (init true (some (dumpText bs))).cpuinfo.len = bs.length + 1 ∧
    (∀ (i : Nat) (b : Block), bs[i]? = some b →
      (init true (some (dumpText bs))).cpuinfo.get? i =
        some ((if i = 0 then [] else ['\n']) ++ blockLines b)) ∧
    (init true (some (dumpText bs))).cpuinfo.get? bs.length =
      some (if bs.length = 0 then [] else ['\n']) := by
  have hn : emptyLines (dumpText bs) = bs.length + 1 := by
    unfold emptyLines
    rw [split_dumpText bs hok]
    exact filter_empty_dumpLines bs hok
  obtain ⟨f1, _, _⟩ := scanDump_facts (dumpText bs)
  have hk : (init true (some (dumpText bs))).cpuinfo.keys = List.range (bs.length + 1) := by
    rw [← hn]
    exact f1
  have hinit : (init true (some (dumpText bs))).cpuinfo =
      ((dumpLines bs).foldl scanLine ⟨[], 0, []⟩).cpuinfo := by
    simp only [init, if_true, scanDump, split_dumpText bs hok]
  refine ⟨hk, ?_, ?_, ?_⟩
  · have := congrArg List.length hk
    simpa [Catalog.keys, Catalog.len] using this
  · intro i b hb
    have h := (scan_dumpLines bs ⟨[], 0, []⟩ hok).2 i b hb
    simp only [Nat.zero_add] at h
    rw [hinit]
    exact h
  · have h := scan_dumpLines_last bs ⟨[], 0, []⟩ hok
    simp only [Nat.zero_add] at h
    rw [hinit]
    exact h

/-- C9, amended, at the dump of two blocks: three records, keyed 0, 1 and 2. -/
theorem init_catalog_of_blocks_witness :
    (∀ b ∈ blocksTwo, BlockOK b) ∧
    ((init true (some (dumpText blocksTwo))).cpuinfo.keys = List.range (blocksTwo.length + 1) ∧
      (init true (some (dumpText blocksTwo))).cpuinfo.len = blocksTwo.length + 1 ∧
      (∀ (i : Nat) (b : Block), blocksTwo[i]? = some b →
        (init true (some (dumpText blocksTwo))).cpuinfo.get? i =
          some ((if i = 0 then [] else ['\n']) ++ blockLines b)) ∧
      (init true (some (dumpText blocksTwo))).cpuinfo.get? blocksTwo.length =
        some (if blocksTwo.length = 0 then [] else ['\n'])) ∧
    (blocksTwo[1]? = some ["processor\t: 1".toList, "core id\t\t: 1".toList] ∧
      (init true (some (dumpText blocksTwo))).cpuinfo.get? 1 =
        some ((if 1 = 0 then [] else ['\n']) ++
          blockLines ["processor\t: 1".toList, "core id\t\t: 1".toList])) :=
  ⟨by decide, init_catalog_of_blocks blocksTwo (by decide),
    by decide, (init_catalog_of_blocks blocksTwo (by decide)).2.2.1 1 _ (by decide)⟩

end Cgroupfs
